import Mathlib

/-!
Verification development for the splice repository core.

This file gives a shallow embedding of three components and proves
properties about them:

* the grouping engine `groupThreadsAndConversations`
  (src/transforms/core.ts),
* the decision folder `foldDecisions` with its helpers
  (src/core/decisions.ts, first part),
* the canonical serializer `stableStringify` and the content addressed
  `putObject` of the filesystem store (src/core/decisions.ts, second part).

Modelling conventions:
* a JavaScript string-or-undefined-or-null field becomes `Option String`;
  JavaScript truthiness of such a field is `truthy` below (the empty
  string is falsy);
* a `Record<string, T>` keyed by item ids becomes a `List` of the items,
  remembering the iteration order of `Object.values`, with lookup by id;
* the `while` loop of the chain walk, which the source does not guard
  against cyclic parent pointers, is given an explicit fuel parameter;
  `none` means the loop has not terminated within the given fuel, and we
  prove that on cyclic input no amount of fuel suffices;
* a JavaScript `Map` becomes an association list with `Map.set` update
  semantics (update in place keeps the key's insertion position).
-/

namespace Splice

/-! ### Data model (src/core/types.ts)

Only the fields read by the grouping engine are modelled; `text`,
`createdAt`, `media`, `raw` and `annotations` are never inspected by
`groupThreadsAndConversations` and are elided. -/

structure ContentItem where
  id : String
  parentId : Option String := none
  inReplyToUserId : Option String := none
  accountId : Option String := none
  source : String
  deriving DecidableEq, Repr, Inhabited

structure Thread where
  id : String
  items : List ContentItem
  deriving DecidableEq, Repr, Inhabited

/-- Truthiness of an optional string field: `null`/`undefined` and the
empty string are falsy, every other string is truthy. -/
def truthy : Option String → Bool
  | none => false
  | some s => s ≠ ""

/-- The index `all : Record<string, ContentItem>` passed to the grouping
engine, represented by the iteration order of `Object.values(all)`.
Lookup is by item id, matching an index built by `indexById` (whose keys
are exactly the truthy ids of its items). -/
abbrev Index := List ContentItem

/-- Record lookup `all[k]`. -/
def lookupItem (all : Index) (k : String) : Option ContentItem :=
  all.find? (fun it => it.id == k)

/-- One step of the chain walk: the loop condition
`current.parentId && all[current.parentId]` together with the body's
`all[current.parentId]`. Returns the parent when the walk continues. -/
def chainStep (all : Index) (current : ContentItem) : Option ContentItem :=
  match current.parentId with
  | none => none
  | some pid => if pid = "" then none else lookupItem all pid

/-- The `while` loop of the chain walk, with fuel. `acc` is the chain
built so far (leaf first); the source starts it as `[item]`. `none`
means the loop did not terminate within `fuel` iterations. -/
def buildChainAux (all : Index) : Nat → ContentItem → List ContentItem →
    Option (List ContentItem)
  | 0, _, _ => none
  | fuel + 1, current, acc =>
    match chainStep all current with
    | none => some acc
    | some parent => buildChainAux all fuel parent (acc ++ [parent])

def SELF_POST_SOURCES : List String := ["twitter:tweet", "bluesky:post"]

/-- The body of the `isSelfThread` predicate, per chain element. -/
def isSelfReplyItem (c : ContentItem) : Bool :=
  if truthy c.parentId = false then true
  else if truthy c.accountId && truthy c.inReplyToUserId then
    c.inReplyToUserId == c.accountId
  else true

/-- Mutable state of the main loop of `groupThreadsAndConversations`. -/
structure GroupState where
  processed : List String
  threads : List Thread
  conversations : List (List ContentItem)
  deriving DecidableEq, Repr

/-- One iteration of `for (const item of items)` in
`groupThreadsAndConversations`.  `none` propagates a chain walk that ran
out of fuel. -/
def processItem (all : Index) (fuel : Nat) (st : GroupState)
    (item : ContentItem) : Option GroupState :=
  if st.processed.contains item.id then some st
  else if item.source == "bluesky:fetched" then some st
  else
    match buildChainAux all fuel item [item] with
    | none => none
    | some chain =>
      let processed := st.processed ++ chain.map (·.id)
      let allSelfPosts := chain.all (fun c => SELF_POST_SOURCES.contains c.source)
      let isSelfThread := chain.all isSelfReplyItem
      if allSelfPosts && isSelfThread then
        let ordered := chain.reverse
        some { st with processed := processed,
                       threads := st.threads ++ [{ id := ordered.headI.id, items := ordered }] }
      else
        some { st with processed := processed,
                       conversations := st.conversations ++ [chain.reverse] }

/-- The main loop, folded over the iteration order of the index. -/
def runGroupAux (all : Index) (fuel : Nat) :
    GroupState → List ContentItem → Option GroupState
  | st, [] => some st
  | st, item :: rest =>
    match processItem all fuel st item with
    | none => none
    | some st' => runGroupAux all fuel st' rest

def runGroup (all : Index) (fuel : Nat) : Option GroupState :=
  runGroupAux all fuel ⟨[], [], []⟩ all

/-- Root id of a conversation: the id of its first item. -/
def convRoot (c : List ContentItem) : Option String :=
  c.head?.map (·.id)

/-- `Map.set` on an association list: replace in place when the key is
present (keeping its insertion position), append otherwise. -/
def jsMapSet {α : Type} (m : List (String × α)) (k : String) (v : α) :
    List (String × α) :=
  if m.any (fun p => p.1 == k) then
    m.map (fun p => if p.1 == k then (k, v) else p)
  else m ++ [(k, v)]

/-- One iteration of the deduplication loop over conversations:
`if (!existing || conv.length > existing.length) map.set(rootId, conv)`. -/
def dedupStep (m : List (String × List ContentItem)) (conv : List ContentItem) :
    List (String × List ContentItem) :=
  match conv with
  | [] => m
  | r :: _ =>
    match m.find? (fun p => p.1 == r.id) with
    | none => jsMapSet m r.id conv
    | some ex => if conv.length > ex.2.length then jsMapSet m r.id conv else m

/-- Deduplicate conversations: keep only the longest chain per root id;
the output order is `Map` value iteration order. -/
def dedupConversations (convs : List (List ContentItem)) :
    List (List ContentItem) :=
  ((convs.foldl dedupStep []).map (·.2))

/-- The grouping engine `groupThreadsAndConversations` of
src/transforms/core.ts, with explicit fuel for the unguarded chain walk. -/
def groupThreadsAndConversations (all : Index) (fuel : Nat) :
    Option (List Thread × List (List ContentItem)) :=
  (runGroup all fuel).map (fun st => (st.threads, dedupConversations st.conversations))

/-- Classification predicate of a chain: every item is a self post and
every item passes the self reply test.  A chain is emitted as a Thread
iff this holds of it, and as a Conversation iff it does not. -/
def chainPred (l : List ContentItem) : Bool :=
  l.all (fun c => SELF_POST_SOURCES.contains c.source) && l.all isSelfReplyItem

/-- Invariant: emitted threads satisfy `chainPred`, emitted conversations
falsify it. -/
def ClassInv (st : GroupState) : Prop :=
  (∀ T ∈ st.threads, chainPred T.items = true) ∧
  (∀ C ∈ st.conversations, chainPred C = false)

/-- Invariant of the deduplication fold: after processing the
conversations `pfxc`, every map entry is a nonempty conversation from
`pfxc`, keyed by its root id, keys are duplicate-free, each entry is at
least as long as every conversation of `pfxc` sharing its root, and
every nonempty conversation of `pfxc` has its root among the keys. -/
def DedupInv (pfxc : List (List ContentItem))
    (m : List (String × List ContentItem)) : Prop :=
  (∀ p ∈ m, p.2 ≠ [] ∧ convRoot p.2 = some p.1 ∧ p.2 ∈ pfxc) ∧
  (m.map Prod.fst).Nodup ∧
  (∀ p ∈ m, ∀ C' ∈ pfxc, convRoot C' = some p.1 → C'.length ≤ p.2.length) ∧
  (∀ C' ∈ pfxc, C' ≠ [] → ∃ p ∈ m, convRoot C' = some p.1)

/-- Chain adjacency property of an emitted item list (ordered oldest to
newest): each item after the first has its predecessor as parent, and
the first item's `parentId` is absent or does not resolve in the index.
(The walk also stops on an empty string `parentId`, which is falsy in
JavaScript; in an index built by `indexById` no item has an empty id, so
an empty `parentId` does not resolve either.) -/
def AdjOk (all : Index) (l : List ContentItem) : Prop :=
  (∀ i (h : i + 1 < l.length),
    (l.get ⟨i + 1, h⟩).parentId = some ((l.get ⟨i, Nat.lt_of_succ_lt h⟩).id)) ∧
  (∀ r, l.head? = some r →
    r.parentId = none ∨ ∀ pid, r.parentId = some pid → lookupItem all pid = none)

/-! ### Data model of the decision folder (src/core/decisions.ts)

`Date.parse` is a JavaScript builtin; it is abstracted as an explicit
`parseDate` function argument, with `none` standing for `NaN`.  The
opaque `unknown` values of the `meta` record are abstracted as strings;
`by` is a Lean keyword, so the field is called `by_`. -/

structure DecisionRecord where
  id : String
  status : Option String := none
  tags : Option (List String) := none
  notes : Option String := none
  ts : Option String := none
  by_ : Option String := none
  meta : Option (List (String × String)) := none
  deriving DecidableEq, Repr

structure LatestDecision where
  id : String
  status : Option String := none
  tags : List String := []
  notes : Option String := none
  ts : Option String := none
  by_ : Option String := none
  meta : Option (List (String × String)) := none
  deriving DecidableEq, Repr

def DEFAULT_DECISION_STATUSES : List String := ["unread", "export", "skip"]

structure FoldOptions where
  restrictStatuses : Option Bool := none
  allowedStatuses : Option (List String) := none
  deriving DecidableEq, Repr

/-- JavaScript `isValidIso` composed with `Date.parse`: `!ts` rejects a
missing and an empty timestamp; otherwise the abstract parser decides
validity (`none` = `NaN`). -/
def jsParseTs (parseDate : String → Option Int) : Option String → Option Int
  | none => none
  | some s => if s = "" then none else parseDate s

/-- `compareDecisionRecency` of src/core/decisions.ts lifted to the two
`ts` fields. -/
def compareDecisionRecency (parseDate : String → Option Int)
    (a b : Option String) : Int :=
  match jsParseTs parseDate a, jsParseTs parseDate b with
  | some x, some y => x - y
  | some _, none => 1
  | none, some _ => -1
  | none, none => 0

/-- `Array.from(new Set(l))`: deduplicate keeping first occurrences in
insertion order. -/
def setFrom (l : List String) : List String :=
  l.foldl (fun acc x => if x ∈ acc then acc else acc ++ [x]) []

/-- Object spread `{ ...a, ...b }` on string records with unique keys:
keys of `a` first (values overridden by `b` when shared), then the new
keys of `b`, in insertion order. -/
def recordSpread (a b : List (String × String)) : List (String × String) :=
  (a.map (fun p =>
    match b.find? (fun q => q.1 == p.1) with
    | some q => (p.1, q.2)
    | none => p)) ++
  b.filter (fun q => !(a.any (fun p => p.1 == q.1)))

/-- `normalizeStatus` of src/core/decisions.ts. -/
def normalizeStatus (status : Option String) (opts : Option FoldOptions) :
    Option String :=
  match status with
  | none => none
  | some s =>
    if s = "" then none
    else
      let restrict := (opts.bind (·.restrictStatuses)).getD true
      let allowed := (opts.bind (·.allowedStatuses)).getD DEFAULT_DECISION_STATUSES
      if restrict = false then some s
      else if allowed.contains s then some s else none

/-- `mergeDecision` of src/core/decisions.ts: merge record `b` into
aggregate `a`, `b` winning where present (`??`); tags are unioned and
`meta` is spread-merged. -/
def mergeDecision (a : LatestDecision) (b : DecisionRecord) : LatestDecision :=
  { id := a.id
    status := b.status.or a.status
    tags := setFrom (a.tags ++ b.tags.getD [])
    notes := b.notes.or a.notes
    ts := b.ts.or a.ts
    by_ := b.by_.or a.by_
    meta := some (recordSpread (a.meta.getD []) (b.meta.getD [])) }

/-- `baseFromDecision` of src/core/decisions.ts. -/
def baseFromDecision (rec : DecisionRecord) : LatestDecision :=
  { id := rec.id
    status := rec.status
    tags := setFrom (rec.tags.getD [])
    notes := rec.notes
    ts := rec.ts
    by_ := rec.by_
    meta := rec.meta }

/-- `Map.get` on the association list model. -/
def lookupD {α : Type} (m : List (String × α)) (k : String) : Option α :=
  (m.find? (fun p => p.1 == k)).map (·.2)

/-- The loop body of `foldDecisions`.  A typed `DecisionRecord` always
has a string id, so of the guard
`!rec || typeof rec.id !== "string" || rec.id.length === 0` only the
empty id case remains. -/
def foldStep (parseDate : String → Option Int) (opts : Option FoldOptions)
    (out : List (String × LatestDecision)) (rec : DecisionRecord) :
    List (String × LatestDecision) :=
  if rec.id = "" then out
  else
    let normalized : DecisionRecord := { rec with status := normalizeStatus rec.status opts }
    match out.find? (fun p => p.1 == rec.id) with
    | none => jsMapSet out rec.id (baseFromDecision normalized)
    | some p =>
      if compareDecisionRecency parseDate normalized.ts p.2.ts ≥ 0 then
        jsMapSet out rec.id (mergeDecision p.2 normalized)
      else
        jsMapSet out rec.id
          { p.2 with tags := setFrom (p.2.tags ++ normalized.tags.getD []) }

/-- `foldDecisions` of src/core/decisions.ts over a finite stream. -/
def foldDecisions (parseDate : String → Option Int)
    (decisions : List DecisionRecord) (opts : Option FoldOptions) :
    List (String × LatestDecision) :=
  decisions.foldl (foldStep parseDate opts) []

/-- Invariant of the fold relating an accumulator to the stream records
already processed: a present aggregate's tag set is exactly the union of
its records' tags, and an absent key has no processed record. -/
def TagsInv (processed : List DecisionRecord)
    (out : List (String × LatestDecision)) : Prop :=
  ∀ k, k ≠ "" →
    (∀ agg, lookupD out k = some agg →
      ∀ t, t ∈ agg.tags ↔ ∃ rec ∈ processed, rec.id = k ∧ t ∈ rec.tags.getD []) ∧
    (lookupD out k = none → ∀ rec ∈ processed, rec.id ≠ k)

/-- Concrete timestamp parser for witnesses: day `"1"` is older than
day `"2"`, everything else is invalid. -/
def demoParse : String → Option Int :=
  fun s => if s = "1" then some 1 else if s = "2" then some 2 else none

/-- First decision record of the C4 witness stream. -/
def c4Prev : DecisionRecord :=
  { id := "x", status := some "export", ts := some "1" }

/-- Second (strictly newer) decision record of the C4 witness stream. -/
def c4Rec : DecisionRecord :=
  { id := "x", notes := some "n", ts := some "2" }

/-- Aggregate for id `x` after folding `c4Prev` alone. -/
def c4Agg : LatestDecision :=
  { id := "x", status := some "export", tags := [], ts := some "1" }

/-- First record of the C5 witness stream: tags only, no timestamp. -/
def c5r1 : DecisionRecord := { id := "x", tags := some ["a"] }

/-- Second record of the C5 witness stream: wins recency, other tags. -/
def c5r2 : DecisionRecord :=
  { id := "x", status := some "skip", tags := some ["b", "a"], ts := some "1" }

/-! ### Canonical serializer and content addressed store
(src/core/decisions.ts, second part)

JavaScript values form an object graph, so `stableStringify` (which
detects cycles through a `WeakSet`) is modelled over an explicit heap: a
list of nodes addressed by position.  A primitive node carries its
(deterministic) `JSON.stringify` image directly; arrays carry the
addresses of their elements, objects their fields as key/address pairs.
An address outside the heap behaves as the primitive `null`.  The
recursion of `stableStringify`, which the `seen` set bounds by the
number of container nodes, is given explicit fuel; `SErr.fuel` marks
fuel exhaustion and is proved unreachable at fuel `h.length + 1`, and
`SErr.circular` is the `TypeError` thrown on a cycle.  SHA-256 is an
arbitrary deterministic function of the canonical string and is passed
as a parameter. -/

inductive JNode where
  | prim (repr : String)
  | arr (elems : List Nat)
  | obj (fields : List (String × Nat))
  deriving DecidableEq, Repr

abbrev Heap := List JNode

/-- Node stored at an address; out of range addresses read as `null`. -/
def nodeAt (h : Heap) (a : Nat) : JNode :=
  h.getD a (JNode.prim "null")

/-- `JSON.stringify` of an object key: quote, escaping backslashes and
quotes (further control character escapes are irrelevant here). -/
def jsonQuote (s : String) : String :=
  "\"" ++ String.mk (s.data.flatMap
    (fun c => if c = '"' ∨ c = '\\' then ['\\', c] else [c])) ++ "\""

/-- Code unit order on strings, as JavaScript's default `sort()`
comparator for `Object.keys`. -/
def codeUnitsLe : List Nat → List Nat → Bool
  | [], _ => true
  | _ :: _, [] => false
  | x :: xs, y :: ys =>
    if x < y then true else if y < x then false else codeUnitsLe xs ys

def keyLe (a b : String) : Bool :=
  codeUnitsLe (a.data.map Char.toNat) (b.data.map Char.toNat)

/-- Key list of an object, sorted as by `Object.keys(v).sort()`.
JavaScript's sort is a stable comparison sort; insertion sort realizes
it. -/
def sortedKeys (fs : List (String × Nat)) : List String :=
  List.insertionSort (fun x y => keyLe x y = true) (fs.map Prod.fst)

/-- Property access `v[k]`: address of the field named `k`.  For a key
of the object this is its unique binding; the default (a dangling
address reading as `null`) is never reached on object keys. -/
def objGet (h : Heap) (fs : List (String × Nat)) (k : String) : Nat :=
  match fs.find? (fun p => p.1 == k) with
  | some p => p.2
  | none => h.length

inductive SErr where
  | circular
  | fuel
  deriving DecidableEq, Repr

/-- Sequence a list of partial results, propagating the first error, as
a left-to-right `Array.prototype.map` whose callback may throw. -/
def collectOk : List (Except SErr String) → Except SErr (List String)
  | [] => .ok []
  | .error e :: _ => .error e
  | .ok s :: rest =>
    match collectOk rest with
    | .error e => .error e
    | .ok ss => .ok (s :: ss)

/-- The recursive worker of `stableStringify`: `seen` is the set of
container addresses on the current path (`seen.add` before the children,
`seen.delete` after, is the same as passing `a :: seen` down). -/
def seenStringify (h : Heap) : Nat → List Nat → Nat → Except SErr String
  | 0, _, _ => .error .fuel
  | f + 1, seen, a =>
    match nodeAt h a with
    | .prim r => .ok r
    | .arr es =>
      if a ∈ seen then .error .circular
      else
        match collectOk (es.map (fun e => seenStringify h f (a :: seen) e)) with
        | .error e => .error e
        | .ok parts => .ok ("[" ++ String.intercalate "," parts ++ "]")
    | .obj fs =>
      if a ∈ seen then .error .circular
      else
        match collectOk ((sortedKeys fs).map (fun k =>
            Except.map (fun s => jsonQuote k ++ ":" ++ s)
              (seenStringify h f (a :: seen) (objGet h fs k)))) with
        | .error e => .error e
        | .ok parts => .ok ("\x7b" ++ String.intercalate "," parts ++ "\x7d")

/-- `stableStringify` of src/core/decisions.ts.  The fuel `h.length + 1`
is provably sufficient: recursion depth is bounded by the number of
container nodes plus one because every recursive step pushes a new
container address onto `seen`. -/
def stableStringify (h : Heap) (a : Nat) : Except SErr String :=
  seenStringify h (h.length + 1) [] a

/-- Files present in the objects directory of the store, as
(kind, hash) pairs. -/
structure FsState where
  objects : List (String × String) := []
  deriving DecidableEq, Repr

def makeRef (kind hash : String) : String := kind ++ ":" ++ hash

/-- `FsStore.putObject`: canonicalize, hash, and write unless a blob
with that hash already exists.  Returns the reference, the new store
state and whether the blob was written. -/
def putObject (hash : String → String) (h : Heap) (st : FsState) (v : Nat) :
    Except SErr (String × FsState × Bool) :=
  match stableStringify h v with
  | .error e => .error e
  | .ok json =>
    let hs := hash json
    let ref := makeRef "json" hs
    if st.objects.contains ("json", hs) then .ok (ref, st, false)
    else .ok (ref, { objects := st.objects ++ [("json", hs)] }, true)

/-- Child addresses of a node in the object graph. -/
def jChildren : JNode → List Nat
  | .prim _ => []
  | .arr es => es
  | .obj fs => fs.map Prod.snd

/-- One reference step in the object graph. -/
def hstep (h : Heap) (x y : Nat) : Prop :=
  y ∈ jChildren (nodeAt h x)

/-- Reachability in the object graph. -/
def reach (h : Heap) : Nat → Nat → Prop :=
  Relation.ReflTransGen (hstep h)

/-- JavaScript objects have unique keys. -/
def WfHeap (h : Heap) : Prop :=
  ∀ n ∈ h, ∀ fs, n = JNode.obj fs → (fs.map Prod.fst).Nodup

def isContainer : JNode → Bool
  | .prim _ => false
  | .arr _ => true
  | .obj _ => true

/-- Container addresses of the heap; only these are ever added to the
`seen` set. -/
def objAddrs (h : Heap) : Finset Nat :=
  (Finset.range h.length).filter (fun a => isContainer (nodeAt h a) = true)

/-- Logical equality of two heap values: same primitives, arrays
pointwise in order, objects with the same key set and logically equal
values per key — key insertion order free. -/
inductive LogEq (h : Heap) : Nat → Nat → Prop
  | prim (a b : Nat) (r : String) :
      nodeAt h a = .prim r → nodeAt h b = .prim r → LogEq h a b
  | arr (a b : Nat) (es fs : List Nat) :
      nodeAt h a = .arr es → nodeAt h b = .arr fs →
      es.length = fs.length →
      (∀ i (hi : i < es.length) (hj : i < fs.length),
        LogEq h (es.get ⟨i, hi⟩) (fs.get ⟨i, hj⟩)) →
      LogEq h a b
  | obj (a b : Nat) (fs1 fs2 : List (String × Nat)) :
      nodeAt h a = .obj fs1 → nodeAt h b = .obj fs2 →
      (∀ k, k ∈ fs1.map Prod.fst ↔ k ∈ fs2.map Prod.fst) →
      (∀ k, k ∈ fs1.map Prod.fst →
        LogEq h (objGet h fs1 k) (objGet h fs2 k)) →
      LogEq h a b

/-- Heap of the C7 witness: a single array containing itself. -/
def cycHeap : Heap := [JNode.arr [0]]

/-- Heap of the C10 witness: an array whose two elements are the same
shared object (a DAG, no cycle). -/
def dagHeap : Heap := [JNode.arr [1, 1], JNode.prim "7"]

/-- Heap of the C6 witness: two objects with the same fields inserted in
different order. -/
def keyHeap : Heap :=
  [JNode.obj [("a", 2), ("b", 3)], JNode.obj [("b", 3), ("a", 2)],
   JNode.prim "1", JNode.prim "2"]

/-! ### Concrete scenarios used by the claims -/

/-- Root item `100`: a self post with no parent. -/
def i100 : ContentItem :=
  { id := "100", accountId := some "u1", source := "twitter:tweet" }

/-- Item `101`: replies to `100`, `inReplyToUserId` equals its own
`accountId` (a self reply). -/
def i101 : ContentItem :=
  { id := "101", parentId := some "100", inReplyToUserId := some "u1",
    accountId := some "u1", source := "twitter:tweet" }

/-- Item `102`: replies to `101`, `inReplyToUserId` differs from its own
`accountId` (not a self reply). -/
def i102 : ContentItem :=
  { id := "102", parentId := some "101", inReplyToUserId := some "u2",
    accountId := some "u1", source := "twitter:tweet" }

/-- The output claimed by C1: exactly one Thread `{100, 101}` and
exactly one Conversation `{100, 101, 102}` rooted at `100`. -/
def c1Expected : List Thread × List (List ContentItem) :=
  ([{ id := "100", items := [i100, i101] }], [[i100, i101, i102]])

/-- Item `a` of a two element parent cycle. -/
def cycA : ContentItem :=
  { id := "a", parentId := some "b", source := "twitter:tweet" }

/-- Item `b` of a two element parent cycle. -/
def cycB : ContentItem :=
  { id := "b", parentId := some "a", source := "twitter:tweet" }

/-- Item `102'` for the C2 scenario: a self reply to `101` (same ids),
so that the chain `100 → 101 → 102'` is emitted as a Thread. -/
def j102 : ContentItem :=
  { id := "102", parentId := some "101", inReplyToUserId := some "u1",
    accountId := some "u1", source := "twitter:tweet" }

/-- Item `103` for the C2 scenario: a reply to `101` by another target
user, so that the chain `100 → 101 → 103` is emitted as a Conversation
rooted at `100`. -/
def j103 : ContentItem :=
  { id := "103", parentId := some "101", inReplyToUserId := some "u2",
    accountId := some "u1", source := "twitter:tweet" }

/-! ### Fuel monotonicity

A run that completes within some fuel completes with the same result for
any larger fuel, so "the run completes" is a well defined notion. -/

theorem buildChainAux_succ_of_some {all : Index} {f : Nat} {cur : ContentItem}
    {acc r : List ContentItem} (h : buildChainAux all f cur acc = some r) :
    buildChainAux all (f + 1) cur acc = some r := by
  induction f generalizing cur acc with
  | zero => simp [buildChainAux] at h
  | succ f ih =>
    rw [buildChainAux] at h ⊢
    cases hs : chainStep all cur with
    | none => rw [hs] at h; exact h
    | some parent => rw [hs] at h; exact ih h

theorem buildChainAux_mono {all : Index} {f f' : Nat} {cur : ContentItem}
    {acc r : List ContentItem} (hle : f ≤ f')
    (h : buildChainAux all f cur acc = some r) :
    buildChainAux all f' cur acc = some r := by
  induction f' with
  | zero =>
    have hf : f = 0 := Nat.le_zero.mp hle
    subst hf; exact h
  | succ f' ih =>
    rcases Nat.lt_or_ge f (f' + 1) with hlt | hge
    · exact buildChainAux_succ_of_some (ih (Nat.lt_succ_iff.mp hlt))
    · have : f = f' + 1 := Nat.le_antisymm hle hge
      exact this ▸ h

theorem processItem_mono {all : Index} {f f' : Nat} {st st' : GroupState}
    {item : ContentItem} (hle : f ≤ f')
    (h : processItem all f st item = some st') :
    processItem all f' st item = some st' := by
  unfold processItem at h ⊢
  by_cases h1 : st.processed.contains item.id = true
  · rw [if_pos h1] at h ⊢; exact h
  · rw [if_neg h1] at h ⊢
    by_cases h2 : (item.source == "bluesky:fetched") = true
    · rw [if_pos h2] at h ⊢; exact h
    · rw [if_neg h2] at h ⊢
      cases hc : buildChainAux all f item [item] with
      | none => rw [hc] at h; exact absurd h (by simp)
      | some chain =>
        rw [buildChainAux_mono hle hc]
        rw [hc] at h
        exact h

theorem runGroupAux_mono {all : Index} {f f' : Nat} {st st' : GroupState}
    {items : List ContentItem} (hle : f ≤ f')
    (h : runGroupAux all f st items = some st') :
    runGroupAux all f' st items = some st' := by
  induction items generalizing st with
  | nil => exact h
  | cons item rest ih =>
    rw [runGroupAux] at h ⊢
    cases hp : processItem all f st item with
    | none => rw [hp] at h; exact absurd h (by simp)
    | some st1 => rw [processItem_mono hle hp]; rw [hp] at h; exact ih h

theorem groupThreadsAndConversations_mono {all : Index} {f f' : Nat}
    {out : List Thread × List (List ContentItem)} (hle : f ≤ f')
    (h : groupThreadsAndConversations all f = some out) :
    groupThreadsAndConversations all f' = some out := by
  unfold groupThreadsAndConversations runGroup at h ⊢
  cases hr : runGroupAux all f ⟨[], [], []⟩ all with
  | none => rw [hr] at h; exact absurd h (by simp)
  | some st => rw [runGroupAux_mono hle hr]; rw [hr] at h; exact h

/-! ### Association list facts for the `Map` model -/

theorem jsMapSet_of_mem {α : Type} {m : List (String × α)} {k : String} {v : α}
    {p : String × α} (hp : p ∈ jsMapSet m k v) :
    p = (k, v) ∨ (p ∈ m ∧ (p.1 = k → False)) := by
  unfold jsMapSet at hp
  by_cases hany : m.any (fun q => q.1 == k) = true
  · rw [if_pos hany] at hp
    rcases List.mem_map.mp hp with ⟨q, hq, hfq⟩
    by_cases hqk : (q.1 == k) = true
    · left; rw [if_pos hqk] at hfq; exact hfq.symm
    · right
      rw [if_neg hqk] at hfq
      subst hfq
      exact ⟨hq, fun he => hqk (by simp [he])⟩
  · rw [if_neg hany] at hp
    rcases List.mem_append.mp hp with hin | hnew
    · right
      refine ⟨hin, fun he => ?_⟩
      exact hany (List.any_eq_true.mpr ⟨p, hin, by simp [he]⟩)
    · left; simpa using hnew

theorem jsMapSet_keys_update {α : Type} {m : List (String × α)} {k : String}
    {v : α} (hany : m.any (fun q => q.1 == k) = true) :
    (jsMapSet m k v).map Prod.fst = m.map Prod.fst := by
  unfold jsMapSet
  rw [if_pos hany, List.map_map]
  apply List.map_congr_left
  intro q _
  by_cases hqk : (q.1 == k) = true
  · simp only [Function.comp_apply, if_pos hqk]
    exact (eq_of_beq hqk).symm
  · simp only [Function.comp_apply, if_neg hqk]

theorem jsMapSet_keys_append {α : Type} {m : List (String × α)} {k : String}
    {v : α} (hany : m.any (fun q => q.1 == k) = false) :
    (jsMapSet m k v).map Prod.fst = m.map Prod.fst ++ [k] := by
  unfold jsMapSet
  rw [if_neg (by simp [hany]), List.map_append]
  rfl

/-- In an association list with duplicate-free keys, two members with the
same key are the same pair. -/
theorem assoc_key_unique {α : Type} {m : List (String × α)}
    (hnd : (m.map Prod.fst).Nodup) {p q : String × α}
    (hp : p ∈ m) (hq : q ∈ m) (hk : p.1 = q.1) : p = q := by
  induction m with
  | nil => cases hp
  | cons a rest ih =>
    rw [List.map_cons, List.nodup_cons] at hnd
    rcases List.mem_cons.mp hp with hpa | hpr <;>
      rcases List.mem_cons.mp hq with hqa | hqr
    · rw [hpa, hqa]
    · exact absurd (hpa ▸ hk ▸ List.mem_map_of_mem Prod.fst hqr) hnd.1
    · exact absurd (hqa ▸ hk.symm ▸ List.mem_map_of_mem Prod.fst hpr) hnd.1
    · exact ih hnd.2 hpr hqr

theorem lookupD_jsMapSet_self {α : Type} (m : List (String × α)) (k : String)
    (v : α) : lookupD (jsMapSet m k v) k = some v := by
  induction m with
  | nil => simp [jsMapSet, lookupD, List.find?]
  | cons p m' ih =>
    by_cases hpk : (p.1 == k) = true
    · have hany : ((p :: m').any (fun q => q.1 == k)) = true := by
        simp [List.any_cons, hpk]
      unfold jsMapSet
      rw [if_pos hany]
      unfold lookupD
      rw [List.map_cons, if_pos hpk, List.find?_cons]
      simp
    · cases hany' : (m'.any (fun q => q.1 == k)) with
      | true =>
        have hany : ((p :: m').any (fun q => q.1 == k)) = true := by
          simp only [List.any_cons, hany', Bool.or_true]
        unfold jsMapSet at ih ⊢
        rw [if_pos hany]
        rw [if_pos hany'] at ih
        unfold lookupD at ih ⊢
        rw [List.map_cons, if_neg hpk, List.find?_cons]
        simp only [hpk]
        exact ih
      | false =>
        have hany : ((p :: m').any (fun q => q.1 == k)) = false := by
          simp only [List.any_cons, hany', Bool.or_false]
          exact Bool.of_not_eq_true hpk
        unfold jsMapSet at ih ⊢
        rw [if_neg (by simp [hany])]
        rw [if_neg (by simp [hany'])] at ih
        unfold lookupD at ih ⊢
        rw [List.cons_append, List.find?_cons]
        simp only [hpk]
        exact ih

theorem find?_map_update {α : Type} (m : List (String × α)) (k k' : String)
    (v : α) (hne : k' ≠ k) :
    List.find? (fun p => p.1 == k')
      (m.map (fun p => if p.1 == k then (k, v) else p)) =
    List.find? (fun p => p.1 == k') m := by
  induction m with
  | nil => rfl
  | cons p m' ih =>
    rw [List.map_cons, List.find?_cons, List.find?_cons]
    by_cases hpk : (p.1 == k) = true
    · rw [if_pos hpk]
      have h1 : (((k, v) : String × α).1 == k') = false := by
        simp only [beq_eq_false_iff_ne, ne_eq]
        exact fun he => hne he.symm
      have h2 : (p.1 == k') = false := by
        simp only [beq_eq_false_iff_ne, ne_eq]
        intro he
        exact hne ((eq_of_beq hpk ▸ he : k = k')).symm
      simp only [h1, h2]
      exact ih
    · rw [if_neg hpk]
      cases hpq : (p.1 == k') with
      | true => simp only [hpq]
      | false => simp only [hpq]; exact ih

theorem lookupD_jsMapSet_other {α : Type} (m : List (String × α)) (k k' : String)
    (v : α) (hne : k' ≠ k) : lookupD (jsMapSet m k v) k' = lookupD m k' := by
  unfold jsMapSet
  by_cases hany : (m.any (fun q => q.1 == k)) = true
  · rw [if_pos hany]
    unfold lookupD
    rw [find?_map_update m k k' v hne]
  · rw [if_neg hany]
    unfold lookupD
    have hkk : (k == k') = false := by
      simp only [beq_eq_false_iff_ne, ne_eq]
      exact fun he => hne he.symm
    rw [List.find?_append]
    simp [List.find?_cons, hkk]

/-! ### The deduplication invariant (claims C2 and C8) -/

theorem dedupStep_inv {pfxc : List (List ContentItem)}
    {m : List (String × List ContentItem)} (hinv : DedupInv pfxc m)
    (conv : List ContentItem) :
    DedupInv (pfxc ++ [conv]) (dedupStep m conv) := by
  obtain ⟨hmem, hnd, hmax, hcompl⟩ := hinv
  match hc : conv with
  | [] =>
    refine ⟨?_, hnd, ?_, ?_⟩
    · intro p hp
      obtain ⟨h1, h2, h3⟩ := hmem p hp
      exact ⟨h1, h2, List.mem_append_left _ h3⟩
    · intro p hp C' hC' hroot
      rcases List.mem_append.mp hC' with h | h
      · exact hmax p hp C' h hroot
      · simp only [List.mem_singleton] at h
        subst h
        simp [convRoot] at hroot
    · intro C' hC' hne
      rcases List.mem_append.mp hC' with h | h
      · exact hcompl C' h hne
      · simp only [List.mem_singleton] at h
        exact absurd h hne
  | r :: rest =>
    show DedupInv (pfxc ++ [r :: rest])
      (match m.find? (fun p => p.1 == r.id) with
        | none => jsMapSet m r.id (r :: rest)
        | some ex =>
          if (r :: rest).length > ex.2.length then jsMapSet m r.id (r :: rest) else m)
    cases hf : m.find? (fun p => p.1 == r.id) with
    | none =>
      have hany : m.any (fun q => q.1 == r.id) = false := by
        by_contra hx
        rcases List.any_eq_true.mp (Bool.of_not_eq_false hx) with ⟨q, hq, hqk⟩
        have := List.find?_eq_none.mp hf q hq
        exact this hqk
      have hnokey : ∀ q ∈ m, q.1 ≠ r.id := by
        intro q hq he
        exact (List.find?_eq_none.mp hf q hq) (by simp [he])
      simp only
      constructor
      · intro p hp
        rcases jsMapSet_of_mem hp with hnew | ⟨hold, _⟩
        · subst hnew
          exact ⟨by simp, by simp [convRoot], List.mem_append_right _ (by simp)⟩
        · obtain ⟨h1, h2, h3⟩ := hmem p hold
          exact ⟨h1, h2, List.mem_append_left _ h3⟩
      refine ⟨?_, ?_, ?_⟩
      · rw [jsMapSet_keys_append hany, List.nodup_append]
        refine ⟨hnd, List.nodup_singleton _, ?_⟩
        intro k hk hk'
        simp only [List.mem_singleton] at hk'
        subst hk'
        rcases List.mem_map.mp hk with ⟨q, hq, hqk⟩
        exact hnokey q hq hqk
      · intro p hp C' hC' hroot
        rcases jsMapSet_of_mem hp with hnew | ⟨hold, hkey⟩
        · subst hnew
          rcases List.mem_append.mp hC' with h | h
          · rcases hcompl C' h (by
              intro he
              subst he
              simp [convRoot] at hroot) with ⟨q, hq, hq2⟩
            exact absurd (by rw [hroot] at hq2; exact (Option.some.inj hq2).symm)
              (hnokey q hq)
          · simp only [List.mem_singleton] at h
            subst h; exact Nat.le_refl _
        · rcases List.mem_append.mp hC' with h | h
          · exact hmax p hold C' h hroot
          · simp only [List.mem_singleton] at h
            subst h
            simp only [convRoot, List.head?_cons, Option.map_some'] at hroot
            exact absurd (Option.some.inj hroot).symm hkey
      · intro C' hC' hne
        rcases List.mem_append.mp hC' with h | h
        · rcases hcompl C' h hne with ⟨q, hq, hq2⟩
          refine ⟨q, ?_, hq2⟩
          unfold jsMapSet
          rw [if_neg (by simp [hany])]
          exact List.mem_append_left _ hq
        · simp only [List.mem_singleton] at h
          subst h
          refine ⟨(r.id, r :: rest), ?_, by simp [convRoot]⟩
          unfold jsMapSet
          rw [if_neg (by simp [hany])]
          exact List.mem_append_right _ (by simp)
    | some ex =>
      have hex_mem : ex ∈ m := List.mem_of_find?_eq_some hf
      have hex_key : ex.1 = r.id := by
        have := List.find?_some hf
        exact eq_of_beq this
      have hany : m.any (fun q => q.1 == r.id) = true :=
        List.any_eq_true.mpr ⟨ex, hex_mem, by simp [hex_key]⟩
      simp only
      by_cases hlen : (r :: rest).length > ex.2.length
      · rw [if_pos hlen]
        constructor
        · intro p hp
          rcases jsMapSet_of_mem hp with hnew | ⟨hold, _⟩
          · subst hnew
            exact ⟨by simp, by simp [convRoot], List.mem_append_right _ (by simp)⟩
          · obtain ⟨h1, h2, h3⟩ := hmem p hold
            exact ⟨h1, h2, List.mem_append_left _ h3⟩
        refine ⟨?_, ?_, ?_⟩
        · rw [jsMapSet_keys_update hany]; exact hnd
        · intro p hp C' hC' hroot
          rcases jsMapSet_of_mem hp with hnew | ⟨hold, hkey⟩
          · subst hnew
            rcases List.mem_append.mp hC' with h | h
            · exact Nat.le_of_lt (Nat.lt_of_le_of_lt (hmax ex hex_mem C' h (by rw [hroot, hex_key])) hlen)
            · simp only [List.mem_singleton] at h
              subst h; exact Nat.le_refl _
          · rcases List.mem_append.mp hC' with h | h
            · exact hmax p hold C' h hroot
            · simp only [List.mem_singleton] at h
              subst h
              simp only [convRoot, List.head?_cons, Option.map_some'] at hroot
              exact absurd (Option.some.inj hroot).symm hkey
        · intro C' hC' hne
          have hkeys : ((jsMapSet m r.id (r :: rest)).map Prod.fst) = m.map Prod.fst :=
            jsMapSet_keys_update hany
          rcases List.mem_append.mp hC' with h | h
          · rcases hcompl C' h hne with ⟨q, hq, hq2⟩
            have : q.1 ∈ (jsMapSet m r.id (r :: rest)).map Prod.fst := by
              rw [hkeys]; exact List.mem_map_of_mem Prod.fst hq
            rcases List.mem_map.mp this with ⟨q', hq', hq'k⟩
            exact ⟨q', hq', by rw [hq2, hq'k]⟩
          · simp only [List.mem_singleton] at h
            subst h
            have : ex.1 ∈ (jsMapSet m r.id (r :: rest)).map Prod.fst := by
              rw [hkeys]; exact List.mem_map_of_mem Prod.fst hex_mem
            rcases List.mem_map.mp this with ⟨q', hq', hq'k⟩
            exact ⟨q', hq', by simp [convRoot, hq'k, hex_key]⟩
      · rw [if_neg hlen]
        constructor
        · intro p hp
          obtain ⟨h1, h2, h3⟩ := hmem p hp
          exact ⟨h1, h2, List.mem_append_left _ h3⟩
        refine ⟨hnd, ?_, ?_⟩
        · intro p hp C' hC' hroot
          rcases List.mem_append.mp hC' with h | h
          · exact hmax p hp C' h hroot
          · simp only [List.mem_singleton] at h
            subst h
            simp only [convRoot, List.head?_cons, Option.map_some'] at hroot
            have hpex : p = ex :=
              assoc_key_unique hnd hp hex_mem (by rw [← (Option.some.inj hroot), hex_key])
            subst hpex
            exact Nat.le_of_not_lt hlen
        · intro C' hC' hne
          rcases List.mem_append.mp hC' with h | h
          · exact hcompl C' h hne
          · simp only [List.mem_singleton] at h
            subst h
            exact ⟨ex, hex_mem, by simp [convRoot, hex_key]⟩

theorem dedup_foldl_inv (convs : List (List ContentItem)) :
    ∀ (pfxc : List (List ContentItem)) (m : List (String × List ContentItem)),
      DedupInv pfxc m → DedupInv (pfxc ++ convs) (convs.foldl dedupStep m) := by
  induction convs with
  | nil => intro pfxc m h; simpa using h
  | cons conv rest ih =>
    intro pfxc m h
    have step := dedupStep_inv h conv
    have := ih (pfxc ++ [conv]) (dedupStep m conv) step
    rw [List.append_assoc] at this
    simpa using this

theorem dedupConversations_inv (convs : List (List ContentItem)) :
    DedupInv convs (convs.foldl dedupStep []) := by
  have hbase : DedupInv [] [] := by
    refine ⟨?_, ?_, ?_, ?_⟩
    · intro p hp; cases hp
    · simp
    · intro p hp; cases hp
    · intro C' hC'; cases hC'
  have := dedup_foldl_inv convs [] [] hbase
  simpa using this

/-! ### The classification invariant of the main loop -/

theorem chainPred_reverse (l : List ContentItem) :
    chainPred l.reverse = chainPred l := by
  simp [chainPred, List.all_reverse]

theorem processItem_classInv {all : Index} {fuel : Nat} {st st' : GroupState}
    {item : ContentItem} (h : processItem all fuel st item = some st')
    (hinv : ClassInv st) : ClassInv st' := by
  unfold processItem at h
  by_cases h1 : st.processed.contains item.id = true
  · rw [if_pos h1] at h
    exact (Option.some.inj h) ▸ hinv
  · rw [if_neg h1] at h
    by_cases h2 : (item.source == "bluesky:fetched") = true
    · rw [if_pos h2] at h
      exact (Option.some.inj h) ▸ hinv
    · rw [if_neg h2] at h
      cases hc : buildChainAux all fuel item [item] with
      | none => rw [hc] at h; exact absurd h (by simp)
      | some chain =>
        rw [hc] at h
        simp only at h
        by_cases hcl : ((chain.all fun c => SELF_POST_SOURCES.contains c.source) &&
            chain.all isSelfReplyItem) = true
        · rw [if_pos hcl] at h
          rcases Option.some.inj h with rfl
          refine ⟨?_, hinv.2⟩
          intro T hT
          rcases List.mem_append.mp hT with hold | hnew
          · exact hinv.1 T hold
          · simp only [List.mem_singleton] at hnew
            subst hnew
            simpa [chainPred_reverse, chainPred] using hcl
        · rw [if_neg hcl] at h
          rcases Option.some.inj h with rfl
          refine ⟨hinv.1, ?_⟩
          intro C hC
          rcases List.mem_append.mp hC with hold | hnew
          · exact hinv.2 C hold
          · simp only [List.mem_singleton] at hnew
            subst hnew
            simpa [chainPred_reverse, chainPred] using hcl

theorem runGroupAux_classInv {all : Index} {fuel : Nat} {st st' : GroupState}
    {items : List ContentItem} (h : runGroupAux all fuel st items = some st')
    (hinv : ClassInv st) : ClassInv st' := by
  induction items generalizing st with
  | nil => exact (Option.some.inj h) ▸ hinv
  | cons item rest ih =>
    rw [runGroupAux] at h
    cases hp : processItem all fuel st item with
    | none => rw [hp] at h; exact absurd h (by simp)
    | some st1 =>
      rw [hp] at h
      exact ih h (processItem_classInv hp hinv)

theorem runGroup_classInv {all : Index} {fuel : Nat} {st : GroupState}
    (h : runGroup all fuel = some st) : ClassInv st :=
  runGroupAux_classInv h
    ⟨fun _ hT => absurd hT (List.not_mem_nil _), fun _ hC => absurd hC (List.not_mem_nil _)⟩

/-! ### Claim C8: root uniqueness and maximality of deduplicated output -/

/-- C8: when a run of `groupThreadsAndConversations` completes, no two
conversations of the deduplicated output share a root id, and each kept
conversation is one of the chains built during the run and is at least
as long as every chain built for the same root. -/
theorem c8_root_unique_longest (all : Index) (fuel : Nat) (st : GroupState)
    (th : List Thread) (cv : List (List ContentItem))
    (hrun : runGroup all fuel = some st)
    (hout : groupThreadsAndConversations all fuel = some (th, cv)) :
    List.Pairwise (fun a b => convRoot a ≠ convRoot b) cv ∧
    ∀ C ∈ cv, C ∈ st.conversations ∧
      ∀ C' ∈ st.conversations, convRoot C' = convRoot C → C'.length ≤ C.length := by
  have hcv : cv = dedupConversations st.conversations := by
    unfold groupThreadsAndConversations at hout
    rw [hrun] at hout
    exact ((Prod.mk.injEq _ _ _ _).mp (Option.some.inj hout)).2.symm
  obtain ⟨hmem, hnd, hmax, _⟩ := dedupConversations_inv st.conversations
  subst hcv
  constructor
  · have hkeys : List.Pairwise (fun p q : String × List ContentItem => p.1 ≠ q.1)
        (st.conversations.foldl dedupStep []) := List.pairwise_map.mp hnd
    have hpair : List.Pairwise
        (fun p q : String × List ContentItem => convRoot p.2 ≠ convRoot q.2)
        (st.conversations.foldl dedupStep []) := by
      refine hkeys.imp_of_mem (fun {p q} hp hq hne hrooteq => hne ?_)
      have hrp := (hmem p hp).2.1
      have hrq := (hmem q hq).2.1
      rw [hrp, hrq] at hrooteq
      exact Option.some.inj hrooteq
    exact List.pairwise_map.mpr hpair
  · intro C hC
    rcases List.mem_map.mp hC with ⟨p, hp, hpv⟩
    obtain ⟨_, hroot, hpin⟩ := hmem p hp
    subst hpv
    exact ⟨hpin, fun C' hC' hroot' => hmax p hp C' hC' (by rw [hroot', hroot])⟩

/-- Witness for C8 on the index `[101, 100, 102]` at fuel `3`. -/
theorem c8_root_unique_longest_witness :
    List.Pairwise (fun a b => convRoot a ≠ convRoot b) [[i100, i101, i102]] ∧
    ∀ C ∈ [[i100, i101, i102]], C ∈ [[i100, i101, i102]] ∧
      ∀ C' ∈ [[i100, i101, i102]], convRoot C' = convRoot C → C'.length ≤ C.length :=
  c8_root_unique_longest [i101, i100, i102] 3
    ⟨["101", "100", "102", "101", "100"],
     [{ id := "100", items := [i100, i101] }], [[i100, i101, i102]]⟩
    [{ id := "100", items := [i100, i101] }] [[i100, i101, i102]]
    (by decide) (by decide)

/-! ### Claim C2: sharing between Threads and Conversations -/

/-- C2 counterexample: four items — `100`, `101` (self reply to `100`),
`102'` (self reply to `101`) and `103` (reply to `101` targeting another
user) — iterated as `[102', 103, 100, 101]` produce a Thread with id
`100` containing items `100` and `101` and a deduplicated Conversation
whose root id is `100` also containing items `100` and `101`.  So two
distinct items of the index do occur simultaneously in a Thread and in a
Conversation for the same chain id, refuting the claim. -/
theorem c2_counterexample :
    groupThreadsAndConversations [j102, j103, i100, i101] 10 =
      some ([{ id := "100", items := [i100, i101, j102] }], [[i100, i101, j103]]) ∧
    i100 ∈ [i100, i101, j102] ∧ i101 ∈ [i100, i101, j102] ∧
    i100 ∈ [i100, i101, j103] ∧ i101 ∈ [i100, i101, j103] ∧
    i100 ≠ i101 ∧
    Thread.id { id := "100", items := [i100, i101, j102] } = "100" ∧
    convRoot [i100, i101, j103] = some "100" := by
  refine ⟨by decide, by decide, by decide, by decide, by decide, by decide, rfl, by decide⟩

/-- C2 (amended): a Thread and a deduplicated Conversation emitted by
the same run may share the same root id and several common items (see
the counterexample), but no item list is ever emitted both as a Thread
and as a Conversation: every emitted chain is classified exactly once,
so for every Thread `T` and deduplicated Conversation `C` of one
completed run, `T.items ≠ C`. -/
theorem c2_amended (all : Index) (fuel : Nat) (th : List Thread)
    (cv : List (List ContentItem))
    (h : groupThreadsAndConversations all fuel = some (th, cv)) :
    ∀ T ∈ th, ∀ C ∈ cv, T.items ≠ C := by
  unfold groupThreadsAndConversations at h
  cases hrun : runGroup all fuel with
  | none => rw [hrun] at h; exact absurd h (by simp)
  | some st =>
    rw [hrun] at h
    simp only [Option.map_some'] at h
    have hth : th = st.threads := ((Prod.mk.injEq _ _ _ _).mp (Option.some.inj h).symm).1
    have hcv : cv = dedupConversations st.conversations :=
      ((Prod.mk.injEq _ _ _ _).mp (Option.some.inj h).symm).2
    have hclass := runGroup_classInv hrun
    intro T hT C hC heq
    have hTp : chainPred T.items = true := hclass.1 T (hth ▸ hT)
    have hCin : C ∈ st.conversations := by
      obtain ⟨hmem, _, _, _⟩ := dedupConversations_inv st.conversations
      rw [hcv] at hC
      rcases List.mem_map.mp hC with ⟨p, hp, hpv⟩
      exact hpv ▸ (hmem p hp).2.2
    have hCp : chainPred C = false := hclass.2 C hCin
    rw [heq, hCp] at hTp
    cases hTp

/-- Witness for the amended C2 on the index `[101, 100, 102]` at fuel `3`. -/
theorem c2_amended_witness :
    Thread.items { id := "100", items := [i100, i101] } ≠ [i100, i101, i102] :=
  c2_amended [i101, i100, i102] 3 [{ id := "100", items := [i100, i101] }]
    [[i100, i101, i102]] (by decide)
    { id := "100", items := [i100, i101] } (List.mem_singleton.mpr rfl)
    [i100, i101, i102] (List.mem_singleton.mpr rfl)

/-! ### The three item scenario of claim C1 -/

/-- C1 counterexample: for the iteration order `[100, 101, 102]` the
completed run (fuel `10` completes it; by fuel monotonicity every larger
fuel gives the same output) emits an extra singleton Thread `{100}`
besides the Thread `{100, 101}` — threads are not deduplicated — so it
does not yield exactly one Thread, and the claim fails "for every
iteration order of the index". -/
theorem c1_counterexample :
    groupThreadsAndConversations [i100, i101, i102] 10 =
      some ([{ id := "100", items := [i100] }, { id := "100", items := [i100, i101] }],
            [[i100, i101, i102]]) ∧
    ([{ id := "100", items := [i100] }, { id := "100", items := [i100, i101] }] :
      List Thread).length ≠ 1 ∧
    some ([{ id := "100", items := [i100] }, { id := "100", items := [i100, i101] }],
          [[i100, i101, i102]]) ≠ some c1Expected :=
  ⟨by decide, by decide, by decide⟩

/-- C1 (amended): the exact output for each of the six iteration orders
of the three item index, for every fuel that completes the runs (fuel
`3` does, and by fuel monotonicity the output is the same for every
larger fuel).  The claimed output `c1Expected` — exactly one Thread
`{100, 101}` and exactly one deduplicated Conversation
`{100, 101, 102}` rooted at `100` — arises precisely for the two orders
that iterate `101` first.  Order `[100, 101, 102]` emits the singleton
Thread `{100}` and the Thread `{100, 101}`; order `[100, 102, 101]`
emits only the singleton Thread `{100}` (item `101` is consumed by
`102`'s chain and the Thread `{100, 101}` never appears); the two
orders iterating `102` first emit no Thread at all.  All six orders
yield the single Conversation `{100, 101, 102}`. -/
theorem c1_amended :
    ∀ fuel, 3 ≤ fuel →
      groupThreadsAndConversations [i101, i100, i102] fuel = some c1Expected ∧
      groupThreadsAndConversations [i101, i102, i100] fuel = some c1Expected ∧
      groupThreadsAndConversations [i100, i101, i102] fuel =
        some ([{ id := "100", items := [i100] }, { id := "100", items := [i100, i101] }],
              [[i100, i101, i102]]) ∧
      groupThreadsAndConversations [i100, i102, i101] fuel =
        some ([{ id := "100", items := [i100] }], [[i100, i101, i102]]) ∧
      groupThreadsAndConversations [i102, i100, i101] fuel =
        some ([], [[i100, i101, i102]]) ∧
      groupThreadsAndConversations [i102, i101, i100] fuel =
        some ([], [[i100, i101, i102]]) := by
  intro fuel hle
  have h1 : groupThreadsAndConversations [i101, i100, i102] 3 = some c1Expected := by decide
  have h2 : groupThreadsAndConversations [i101, i102, i100] 3 = some c1Expected := by decide
  have h3 : groupThreadsAndConversations [i100, i101, i102] 3 =
      some ([{ id := "100", items := [i100] }, { id := "100", items := [i100, i101] }],
            [[i100, i101, i102]]) := by decide
  have h4 : groupThreadsAndConversations [i100, i102, i101] 3 =
      some ([{ id := "100", items := [i100] }], [[i100, i101, i102]]) := by decide
  have h5 : groupThreadsAndConversations [i102, i100, i101] 3 =
      some ([], [[i100, i101, i102]]) := by decide
  have h6 : groupThreadsAndConversations [i102, i101, i100] 3 =
      some ([], [[i100, i101, i102]]) := by decide
  exact ⟨groupThreadsAndConversations_mono hle h1,
    groupThreadsAndConversations_mono hle h2,
    groupThreadsAndConversations_mono hle h3,
    groupThreadsAndConversations_mono hle h4,
    groupThreadsAndConversations_mono hle h5,
    groupThreadsAndConversations_mono hle h6⟩

/-- Witness for the amended C1 at fuel `3`. -/
theorem c1_amended_witness :
    groupThreadsAndConversations [i101, i100, i102] 3 = some c1Expected ∧
    groupThreadsAndConversations [i101, i102, i100] 3 = some c1Expected ∧
    groupThreadsAndConversations [i100, i101, i102] 3 =
      some ([{ id := "100", items := [i100] }, { id := "100", items := [i100, i101] }],
            [[i100, i101, i102]]) ∧
    groupThreadsAndConversations [i100, i102, i101] 3 =
      some ([{ id := "100", items := [i100] }], [[i100, i101, i102]]) ∧
    groupThreadsAndConversations [i102, i100, i101] 3 =
      some ([], [[i100, i101, i102]]) ∧
    groupThreadsAndConversations [i102, i101, i100] 3 =
      some ([], [[i100, i101, i102]]) :=
  c1_amended 3 (by decide)

/-! ### Claim C9: chain adjacency of emitted threads and conversations -/

theorem chainStep_parentId {all : Index} {c d : ContentItem}
    (h : chainStep all c = some d) : c.parentId = some d.id := by
  unfold chainStep at h
  cases hp : c.parentId with
  | none => simp [hp] at h
  | some pid =>
    simp only [hp] at h
    by_cases he : pid = ""
    · rw [if_pos he] at h; cases h
    · rw [if_neg he] at h
      have := List.find?_some h
      exact congrArg some (eq_of_beq this).symm

theorem walk_good {all : Index} {f : Nat} {cur : ContentItem}
    {acc r : List ContentItem}
    (h : buildChainAux all f cur acc = some r)
    (hch : List.Chain' (fun c d => chainStep all c = some d) acc)
    (hl : acc.getLast? = some cur) :
    List.Chain' (fun c d => chainStep all c = some d) r ∧
    ∃ e, r.getLast? = some e ∧ chainStep all e = none := by
  induction f generalizing cur acc with
  | zero => simp [buildChainAux] at h
  | succ f ih =>
    rw [buildChainAux] at h
    cases hs : chainStep all cur with
    | none =>
      rw [hs] at h
      rcases Option.some.inj h with rfl
      exact ⟨hch, cur, hl, hs⟩
    | some parent =>
      rw [hs] at h
      refine ih h ?_ ?_
      · rw [List.chain'_append]
        refine ⟨hch, List.chain'_singleton _, ?_⟩
        intro x hx y hy
        simp only [List.head?_cons, Option.mem_def, Option.some.injEq] at hy
        rw [hl] at hx
        simp only [Option.mem_def, Option.some.injEq] at hx
        subst hx; subst hy; exact hs
      · simp [List.getLast?_append]

theorem adjOk_of_walk {all : Index} (h_ids : ∀ it ∈ all, it.id ≠ "")
    {f : Nat} {item : ContentItem} {r : List ContentItem}
    (h : buildChainAux all f item [item] = some r) : AdjOk all r.reverse := by
  obtain ⟨hch, e, hlast, hstop⟩ :=
    walk_good h (List.chain'_singleton _) (by simp)
  constructor
  · have hpar : List.Chain' (fun c d => c.parentId = some d.id) r :=
      hch.imp (fun _ _ hcd => chainStep_parentId hcd)
    have hrev : List.Chain' (fun a b => b.parentId = some a.id) r.reverse :=
      List.chain'_reverse.mpr hpar
    intro i hi
    have := List.chain'_iff_get.mp hrev i (by omega)
    exact this
  · intro r0 hr0
    rw [List.head?_reverse, hlast] at hr0
    have hre : r0 = e := (Option.some.inj hr0).symm
    subst hre
    unfold chainStep at hstop
    cases hp : r0.parentId with
    | none => exact Or.inl rfl
    | some pid =>
      right
      intro pid' hpid'
      rcases Option.some.inj hpid' with rfl
      simp only [hp] at hstop
      by_cases he : pid = ""
      · subst he
        apply List.find?_eq_none.mpr
        intro it hit
        simp [h_ids it hit]
      · rw [if_neg he] at hstop
        exact hstop

theorem processItem_adjInv {all : Index} (h_ids : ∀ it ∈ all, it.id ≠ "")
    {fuel : Nat} {st st' : GroupState} {item : ContentItem}
    (h : processItem all fuel st item = some st')
    (hinv : (∀ T ∈ st.threads, AdjOk all T.items) ∧
      (∀ C ∈ st.conversations, AdjOk all C)) :
    (∀ T ∈ st'.threads, AdjOk all T.items) ∧
      (∀ C ∈ st'.conversations, AdjOk all C) := by
  unfold processItem at h
  by_cases h1 : st.processed.contains item.id = true
  · rw [if_pos h1] at h
    exact (Option.some.inj h) ▸ hinv
  · rw [if_neg h1] at h
    by_cases h2 : (item.source == "bluesky:fetched") = true
    · rw [if_pos h2] at h
      exact (Option.some.inj h) ▸ hinv
    · rw [if_neg h2] at h
      cases hc : buildChainAux all fuel item [item] with
      | none => rw [hc] at h; exact absurd h (by simp)
      | some chain =>
        rw [hc] at h
        simp only at h
        have hadj : AdjOk all chain.reverse := adjOk_of_walk h_ids hc
        by_cases hcl : ((chain.all fun c => SELF_POST_SOURCES.contains c.source) &&
            chain.all isSelfReplyItem) = true
        · rw [if_pos hcl] at h
          rcases Option.some.inj h with rfl
          refine ⟨?_, hinv.2⟩
          intro T hT
          rcases List.mem_append.mp hT with hold | hnew
          · exact hinv.1 T hold
          · simp only [List.mem_singleton] at hnew
            subst hnew
            exact hadj
        · rw [if_neg hcl] at h
          rcases Option.some.inj h with rfl
          refine ⟨hinv.1, ?_⟩
          intro C hC
          rcases List.mem_append.mp hC with hold | hnew
          · exact hinv.2 C hold
          · simp only [List.mem_singleton] at hnew
            subst hnew
            exact hadj

theorem runGroupAux_adjInv {all : Index} (h_ids : ∀ it ∈ all, it.id ≠ "")
    {fuel : Nat} {st st' : GroupState} {items : List ContentItem}
    (h : runGroupAux all fuel st items = some st')
    (hinv : (∀ T ∈ st.threads, AdjOk all T.items) ∧
      (∀ C ∈ st.conversations, AdjOk all C)) :
    (∀ T ∈ st'.threads, AdjOk all T.items) ∧
      (∀ C ∈ st'.conversations, AdjOk all C) := by
  induction items generalizing st with
  | nil => exact (Option.some.inj h) ▸ hinv
  | cons item rest ih =>
    rw [runGroupAux] at h
    cases hp : processItem all fuel st item with
    | none => rw [hp] at h; exact absurd h (by simp)
    | some st1 =>
      rw [hp] at h
      exact ih h (processItem_adjInv h_ids hp hinv)

/-- C9: in every Thread and every deduplicated Conversation emitted by a
completed run of `groupThreadsAndConversations` over an index whose item
ids are nonempty (as those built by `indexById` always are), each item
after the first has exactly its predecessor as parent, and the first
item's `parentId` is absent or does not resolve in the index. -/
theorem c9_chain_adjacency (all : Index) (fuel : Nat) (th : List Thread)
    (cv : List (List ContentItem)) (h_ids : ∀ it ∈ all, it.id ≠ "")
    (h : groupThreadsAndConversations all fuel = some (th, cv)) :
    (∀ T ∈ th, AdjOk all T.items) ∧ ∀ C ∈ cv, AdjOk all C := by
  unfold groupThreadsAndConversations at h
  cases hrun : runGroup all fuel with
  | none => rw [hrun] at h; exact absurd h (by simp)
  | some st =>
    rw [hrun] at h
    simp only [Option.map_some'] at h
    have hth : th = st.threads := ((Prod.mk.injEq _ _ _ _).mp (Option.some.inj h).symm).1
    have hcv : cv = dedupConversations st.conversations :=
      ((Prod.mk.injEq _ _ _ _).mp (Option.some.inj h).symm).2
    have hinv := runGroupAux_adjInv h_ids hrun
      ⟨fun _ hT => absurd hT (List.not_mem_nil _),
       fun _ hC => absurd hC (List.not_mem_nil _)⟩
    refine ⟨fun T hT => hinv.1 T (hth ▸ hT), fun C hC => ?_⟩
    have hCin : C ∈ st.conversations := by
      obtain ⟨hmem, _, _, _⟩ := dedupConversations_inv st.conversations
      rw [hcv] at hC
      rcases List.mem_map.mp hC with ⟨p, hp, hpv⟩
      exact hpv ▸ (hmem p hp).2.2
    exact hinv.2 C hCin

/-- Witness for C9 on the index `[101, 100, 102]` at fuel `3`. -/
theorem c9_chain_adjacency_witness :
    (∀ T ∈ [({ id := "100", items := [i100, i101] } : Thread)],
      AdjOk [i101, i100, i102] T.items) ∧
    ∀ C ∈ [[i100, i101, i102]], AdjOk [i101, i100, i102] C :=
  c9_chain_adjacency [i101, i100, i102] 3
    [{ id := "100", items := [i100, i101] }] [[i100, i101, i102]]
    (by decide) (by decide)

/-! ### Claim C3: the chain walk on cyclic parent pointers -/

theorem cyc_walk_diverges :
    ∀ fuel acc, buildChainAux [cycA, cycB] fuel cycA acc = none ∧
      buildChainAux [cycA, cycB] fuel cycB acc = none := by
  intro fuel
  induction fuel with
  | zero => intro acc; exact ⟨rfl, rfl⟩
  | succ f ih =>
    intro acc
    have ha : chainStep [cycA, cycB] cycA = some cycB := by decide
    have hb : chainStep [cycA, cycB] cycB = some cycA := by decide
    constructor
    · rw [buildChainAux, ha]; exact (ih (acc ++ [cycB])).2
    · rw [buildChainAux, hb]; exact (ih (acc ++ [cycA])).1

/-- C3: the chain walk of `groupThreadsAndConversations` has no cycle
guard — on an index whose parent pointers form a cycle the `while` loop
of the walk never terminates.  In the fueled model, no amount of fuel
completes the run on the two element cycle `a ⇄ b`, refuting the claim
that the walk "stops rather than looping forever" on cyclic input
(the code is the divergent side; the spec states the intended guard). -/
theorem c3_code_bug :
    ∀ fuel, groupThreadsAndConversations [cycA, cycB] fuel = none := by
  intro fuel
  have hwalk := (cyc_walk_diverges fuel [cycA]).1
  unfold groupThreadsAndConversations runGroup runGroupAux processItem
  simp only [List.contains_nil, Bool.false_eq_true, if_false]
  rw [hwalk]
  rfl

/-! ### Tag union facts (claim C5) -/

theorem mem_setFrom_aux (t : String) (l : List String) :
    ∀ acc, t ∈ l.foldl (fun acc x => if x ∈ acc then acc else acc ++ [x]) acc ↔
      t ∈ acc ∨ t ∈ l := by
  induction l with
  | nil => intro acc; simp
  | cons x xs ih =>
    intro acc
    rw [List.foldl_cons]
    by_cases hx : x ∈ acc
    · rw [if_pos hx, ih acc]
      constructor
      · rintro (h | h)
        · exact Or.inl h
        · exact Or.inr (List.mem_cons_of_mem _ h)
      · rintro (h | h)
        · exact Or.inl h
        · rcases List.mem_cons.mp h with rfl | h
          · exact Or.inl hx
          · exact Or.inr h
    · rw [if_neg hx, ih (acc ++ [x])]
      simp only [List.mem_append, List.mem_singleton, List.mem_cons]
      tauto

theorem mem_setFrom (t : String) (l : List String) : t ∈ setFrom l ↔ t ∈ l := by
  unfold setFrom
  rw [mem_setFrom_aux]
  simp

/-- Unfolding equation of `foldStep` for a record with nonempty id whose
id is not yet in the accumulator; the status normalization changes
neither `ts` nor `tags`. -/
theorem foldStep_eq_none (pd : String → Option Int) (opts : Option FoldOptions)
    (out : List (String × LatestDecision)) (rec : DecisionRecord)
    (h : rec.id ≠ "") (hf : out.find? (fun p => p.1 == rec.id) = none) :
    foldStep pd opts out rec =
      jsMapSet out rec.id
        (baseFromDecision { rec with status := normalizeStatus rec.status opts }) := by
  unfold foldStep
  rw [if_neg h]
  simp only [hf]

/-- Unfolding equation of `foldStep` for a record with nonempty id whose
id already has an aggregate. -/
theorem foldStep_eq_some (pd : String → Option Int) (opts : Option FoldOptions)
    (out : List (String × LatestDecision)) (rec : DecisionRecord)
    (p : String × LatestDecision)
    (h : rec.id ≠ "") (hf : out.find? (fun q => q.1 == rec.id) = some p) :
    foldStep pd opts out rec =
      if compareDecisionRecency pd rec.ts p.2.ts ≥ 0 then
        jsMapSet out rec.id
          (mergeDecision p.2 { rec with status := normalizeStatus rec.status opts })
      else
        jsMapSet out rec.id
          { p.2 with tags := setFrom (p.2.tags ++ rec.tags.getD []) } := by
  unfold foldStep
  rw [if_neg h]
  simp only [hf]

theorem foldStep_tagsInv {pd : String → Option Int} {opts : Option FoldOptions}
    {processed : List DecisionRecord} {out : List (String × LatestDecision)}
    (hinv : TagsInv processed out) (rec : DecisionRecord) :
    TagsInv (processed ++ [rec]) (foldStep pd opts out rec) := by
  intro k hk
  obtain ⟨h1, h2⟩ := hinv k hk
  by_cases hid : rec.id = ""
  · unfold foldStep
    rw [if_pos hid]
    constructor
    · intro agg hagg t
      rw [h1 agg hagg t]
      constructor
      · rintro ⟨r', hr', he, ht⟩
        exact ⟨r', List.mem_append_left _ hr', he, ht⟩
      · rintro ⟨r', hr', he, ht⟩
        rcases List.mem_append.mp hr' with h | h
        · exact ⟨r', h, he, ht⟩
        · simp only [List.mem_singleton] at h
          subst h
          exact absurd (hid ▸ he) (Ne.symm hk)
    · intro hnone r' hr'
      rcases List.mem_append.mp hr' with h | h
      · exact h2 hnone r' h
      · simp only [List.mem_singleton] at h
        subst h
        rw [hid]
        exact Ne.symm hk
  · cases hf : out.find? (fun p => p.1 == rec.id) with
    | none =>
      rw [foldStep_eq_none pd opts out rec hid hf]
      have hnone : lookupD out rec.id = none := by
        unfold lookupD; rw [hf]; rfl
      by_cases hkr : k = rec.id
      · subst hkr
        constructor
        · intro agg hagg t
          rw [lookupD_jsMapSet_self] at hagg
          rcases Option.some.inj hagg with rfl
          show t ∈ setFrom (rec.tags.getD []) ↔ _
          rw [mem_setFrom]
          constructor
          · intro ht
            exact ⟨rec, List.mem_append_right _ (by simp), rfl, ht⟩
          · rintro ⟨r', hr', he, ht⟩
            rcases List.mem_append.mp hr' with h | h
            · exact absurd he (h2 hnone r' h)
            · simp only [List.mem_singleton] at h
              subst h
              exact ht
        · intro hcontra
          rw [lookupD_jsMapSet_self] at hcontra
          cases hcontra
      · constructor
        · intro agg hagg t
          rw [lookupD_jsMapSet_other _ _ _ _ hkr] at hagg
          rw [h1 agg hagg t]
          constructor
          · rintro ⟨r', hr', he, ht⟩
            exact ⟨r', List.mem_append_left _ hr', he, ht⟩
          · rintro ⟨r', hr', he, ht⟩
            rcases List.mem_append.mp hr' with h | h
            · exact ⟨r', h, he, ht⟩
            · simp only [List.mem_singleton] at h
              subst h
              exact absurd he.symm hkr
        · intro hn r' hr'
          rw [lookupD_jsMapSet_other _ _ _ _ hkr] at hn
          rcases List.mem_append.mp hr' with h | h
          · exact h2 hn r' h
          · simp only [List.mem_singleton] at h
            subst h
            exact fun he => hkr he.symm
    | some p =>
      rw [foldStep_eq_some pd opts out rec p hid hf]
      have hlook : lookupD out rec.id = some p.2 := by
        unfold lookupD; rw [hf]; rfl
      have hcommon : ∀ v : LatestDecision,
          (∀ t, t ∈ v.tags ↔ t ∈ p.2.tags ∨ t ∈ rec.tags.getD []) →
          (∀ agg, lookupD (jsMapSet out rec.id v) k = some agg →
            ∀ t, t ∈ agg.tags ↔
              ∃ r' ∈ processed ++ [rec], r'.id = k ∧ t ∈ r'.tags.getD []) ∧
          (lookupD (jsMapSet out rec.id v) k = none →
            ∀ r' ∈ processed ++ [rec], r'.id ≠ k) := by
        intro v hv
        by_cases hkr : k = rec.id
        · subst hkr
          constructor
          · intro agg hagg t
            rw [lookupD_jsMapSet_self] at hagg
            rcases Option.some.inj hagg with rfl
            rw [hv t]
            constructor
            · rintro (ht | ht)
              · rcases (h1 p.2 hlook t).mp ht with ⟨r', hr', he, htt⟩
                exact ⟨r', List.mem_append_left _ hr', he, htt⟩
              · exact ⟨rec, List.mem_append_right _ (by simp), rfl, ht⟩
            · rintro ⟨r', hr', he, ht⟩
              rcases List.mem_append.mp hr' with h | h
              · exact Or.inl ((h1 p.2 hlook t).mpr ⟨r', h, he, ht⟩)
              · simp only [List.mem_singleton] at h
                subst h
                exact Or.inr ht
          · intro hcontra
            rw [lookupD_jsMapSet_self] at hcontra
            cases hcontra
        · constructor
          · intro agg hagg t
            rw [lookupD_jsMapSet_other _ _ _ _ hkr] at hagg
            rw [h1 agg hagg t]
            constructor
            · rintro ⟨r', hr', he, ht⟩
              exact ⟨r', List.mem_append_left _ hr', he, ht⟩
            · rintro ⟨r', hr', he, ht⟩
              rcases List.mem_append.mp hr' with h | h
              · exact ⟨r', h, he, ht⟩
              · simp only [List.mem_singleton] at h
                subst h
                exact absurd he.symm hkr
          · intro hn r' hr'
            rw [lookupD_jsMapSet_other _ _ _ _ hkr] at hn
            rcases List.mem_append.mp hr' with h | h
            · exact h2 hn r' h
            · simp only [List.mem_singleton] at h
              subst h
              exact fun he => hkr he.symm
      by_cases hcmp : compareDecisionRecency pd rec.ts p.2.ts ≥ 0
      · rw [if_pos hcmp]
        refine hcommon _ (fun t => ?_)
        show t ∈ setFrom (p.2.tags ++ rec.tags.getD []) ↔ _
        rw [mem_setFrom, List.mem_append]
      · rw [if_neg hcmp]
        refine hcommon _ (fun t => ?_)
        show t ∈ setFrom (p.2.tags ++ rec.tags.getD []) ↔ _
        rw [mem_setFrom, List.mem_append]

theorem foldl_tagsInv (pd : String → Option Int) (opts : Option FoldOptions)
    (recs : List DecisionRecord) :
    ∀ (processed : List DecisionRecord) (out : List (String × LatestDecision)),
      TagsInv processed out →
      TagsInv (processed ++ recs) (recs.foldl (foldStep pd opts) out) := by
  induction recs with
  | nil => intro processed out h; simpa using h
  | cons rec rest ih =>
    intro processed out h
    have hstep := @foldStep_tagsInv pd opts processed out h rec
    have := ih (processed ++ [rec]) (foldStep pd opts out rec) hstep
    rw [List.append_assoc] at this
    simpa using this

theorem foldDecisions_tagsInv (pd : String → Option Int)
    (opts : Option FoldOptions) (recs : List DecisionRecord) :
    TagsInv recs (foldDecisions pd recs opts) := by
  have hbase : TagsInv [] [] := by
    intro k hk
    constructor
    · intro agg hagg; cases hagg
    · intro _ r' hr'; cases hr'
  have := foldl_tagsInv pd opts recs [] [] hbase
  simpa using this

/-- C5: for every stream, the tag set of each id's folded aggregate is
exactly the union of the tags of all records of the stream carrying
that id; consequently any two streams that are permutations of each
other (in particular ones differing only in the relative order of
equal-recency records of one id) fold to identical tag sets per id. -/
theorem c5_tags_union (pd : String → Option Int) (opts : Option FoldOptions)
    (recs recs' : List DecisionRecord) (hperm : recs.Perm recs')
    (k : String) (hk : k ≠ "") :
    (∀ agg, lookupD (foldDecisions pd recs opts) k = some agg →
      ∀ t, t ∈ agg.tags ↔ ∃ rec ∈ recs, rec.id = k ∧ t ∈ rec.tags.getD []) ∧
    (∀ agg agg', lookupD (foldDecisions pd recs opts) k = some agg →
      lookupD (foldDecisions pd recs' opts) k = some agg' →
      ∀ t, t ∈ agg.tags ↔ t ∈ agg'.tags) := by
  have hA := foldDecisions_tagsInv pd opts recs
  have hB := foldDecisions_tagsInv pd opts recs'
  refine ⟨fun agg hagg t => ((hA k hk).1 agg hagg t), ?_⟩
  intro agg agg' hagg hagg' t
  rw [(hA k hk).1 agg hagg t, (hB k hk).1 agg' hagg' t]
  constructor
  · rintro ⟨r', hr', he, ht⟩
    exact ⟨r', hperm.subset hr', he, ht⟩
  · rintro ⟨r', hr', he, ht⟩
    exact ⟨r', hperm.symm.subset hr', he, ht⟩

/-- Witness for C5: two records for id `x` and the reversed stream. -/
theorem c5_tags_union_witness :
    (∀ agg, lookupD (foldDecisions demoParse [c5r1, c5r2] none) "x" = some agg →
      ∀ t, t ∈ agg.tags ↔ ∃ rec ∈ [c5r1, c5r2], rec.id = "x" ∧ t ∈ rec.tags.getD []) ∧
    (∀ agg agg', lookupD (foldDecisions demoParse [c5r1, c5r2] none) "x" = some agg →
      lookupD (foldDecisions demoParse [c5r2, c5r1] none) "x" = some agg' →
      ∀ t, t ∈ agg.tags ↔ t ∈ agg'.tags) :=
  c5_tags_union demoParse none [c5r1, c5r2] [c5r2, c5r1] (by decide) "x" (by decide)

/-! ### Claim C4: last-writer-wins merging in foldDecisions -/

/-- C4 counterexample: the aggregate for id `x` holds status `export`
with valid timestamp `1`; an incoming record for `x` with the strictly
later valid timestamp `2` but no status of its own is folded in.
Recency says the incoming record is strictly newer, yet the folded
status is still `export` — the aggregate's value, not the incoming
record's own value (`none`).  Incoming fields merge by nullish
coalescing (`b.field ?? a.field`), not by overwriting. -/
theorem c4_counterexample :
    compareDecisionRecency demoParse (some "2") (some "1") > 0 ∧
    DecisionRecord.status { id := "x", ts := some "2" } = none ∧
    lookupD (foldDecisions demoParse
        [{ id := "x", status := some "export", ts := some "1" },
         { id := "x", ts := some "2" }] none) "x" =
      some { id := "x", status := some "export", tags := [],
             ts := some "2", meta := some [] } := by
  refine ⟨by decide, rfl, by decide⟩

/-- C4 (amended): when an aggregate exists for an id and an incoming
record for that id is strictly newer (valid, later timestamp), the fold
replaces the aggregate by `mergeDecision aggregate incoming`, in which
each scalar field is the incoming value where present and the aggregate
value otherwise (`b.field ?? a.field`), and `meta` is a key-wise spread
merge with incoming keys winning; a record with an invalid or missing
timestamp compared against a valid one is always older, and two invalid
timestamps are of equal recency, as claimed. -/
theorem c4_amended (pd : String → Option Int) (opts : Option FoldOptions)
    (recs : List DecisionRecord) (r : DecisionRecord) (agg : LatestDecision)
    (hid : r.id ≠ "")
    (hagg : lookupD (foldDecisions pd recs opts) r.id = some agg)
    (hnewer : compareDecisionRecency pd r.ts agg.ts > 0) :
    (lookupD (foldDecisions pd (recs ++ [r]) opts) r.id =
      some (mergeDecision agg { r with status := normalizeStatus r.status opts })) ∧
    (∀ b : DecisionRecord,
      (mergeDecision agg b).status = b.status.or agg.status ∧
      (mergeDecision agg b).notes = b.notes.or agg.notes ∧
      (mergeDecision agg b).ts = b.ts.or agg.ts ∧
      (mergeDecision agg b).by_ = b.by_.or agg.by_ ∧
      (mergeDecision agg b).meta =
        some (recordSpread (agg.meta.getD []) (b.meta.getD []))) ∧
    (∀ x y, jsParseTs pd x = none → jsParseTs pd y ≠ none →
      compareDecisionRecency pd x y < 0) ∧
    (∀ x y, jsParseTs pd x = none → jsParseTs pd y = none →
      compareDecisionRecency pd x y = 0) := by
  refine ⟨?_, ?_, ?_, ?_⟩
  · have happ : foldDecisions pd (recs ++ [r]) opts =
        foldStep pd opts (foldDecisions pd recs opts) r := by
      unfold foldDecisions
      rw [List.foldl_append]
      rfl
    rw [happ]
    unfold foldStep
    rw [if_neg hid]
    unfold lookupD at hagg
    cases hf : (foldDecisions pd recs opts).find? (fun p => p.1 == r.id) with
    | none => rw [hf] at hagg; cases hagg
    | some p =>
      rw [hf] at hagg
      have hpagg : p.2 = agg := Option.some.inj hagg
      simp only [hf]
      rw [hpagg]
      rw [if_pos (le_of_lt hnewer)]
      exact lookupD_jsMapSet_self _ _ _
  · intro b
    exact ⟨rfl, rfl, rfl, rfl, rfl⟩
  · intro x y hx hy
    unfold compareDecisionRecency
    rw [hx]
    cases hyv : jsParseTs pd y with
    | none => exact absurd hyv hy
    | some n =>
      show (-1 : Int) < 0
      norm_num
  · intro x y hx hy
    unfold compareDecisionRecency
    rw [hx, hy]

/-- Witness for the amended C4: the aggregate for `x` has timestamp `1`
and the incoming record timestamp `2`. -/
theorem c4_amended_witness :
    (lookupD (foldDecisions demoParse ([c4Prev] ++ [c4Rec]) none) "x" =
      some (mergeDecision c4Agg
        { c4Rec with status := normalizeStatus c4Rec.status none })) ∧
    (∀ b : DecisionRecord,
      (mergeDecision c4Agg b).status = b.status.or c4Agg.status ∧
      (mergeDecision c4Agg b).notes = b.notes.or c4Agg.notes ∧
      (mergeDecision c4Agg b).ts = b.ts.or c4Agg.ts ∧
      (mergeDecision c4Agg b).by_ = b.by_.or c4Agg.by_ ∧
      (mergeDecision c4Agg b).meta =
        some (recordSpread (c4Agg.meta.getD []) (b.meta.getD []))) ∧
    (∀ x y, jsParseTs demoParse x = none → jsParseTs demoParse y ≠ none →
      compareDecisionRecency demoParse x y < 0) ∧
    (∀ x y, jsParseTs demoParse x = none → jsParseTs demoParse y = none →
      compareDecisionRecency demoParse x y = 0) :=
  c4_amended demoParse none [c4Prev] c4Rec c4Agg
    (by decide) (by decide) (by decide)

/-! ### Sequencing facts for the serializer -/

theorem collectOk_ok_length {l : List (Except SErr String)} {rs : List String}
    (h : collectOk l = .ok rs) : rs.length = l.length := by
  induction l generalizing rs with
  | nil => cases h; rfl
  | cons e rest ih =>
    cases e with
    | error e' => cases h
    | ok s =>
      rw [collectOk] at h
      cases hco : collectOk rest with
      | error e' => rw [hco] at h; cases h
      | ok ss =>
        rw [hco] at h
        cases h
        simp [ih hco]

theorem collectOk_ok_get {l : List (Except SErr String)} {rs : List String}
    (h : collectOk l = .ok rs) :
    ∀ i (hi : i < l.length) (hj : i < rs.length),
      l.get ⟨i, hi⟩ = .ok (rs.get ⟨i, hj⟩) := by
  induction l generalizing rs with
  | nil => intro i hi; cases hi
  | cons e rest ih =>
    cases e with
    | error e' => cases h
    | ok s =>
      rw [collectOk] at h
      cases hco : collectOk rest with
      | error e' => rw [hco] at h; cases h
      | ok ss =>
        rw [hco] at h
        cases h
        intro i hi hj
        cases i with
        | zero => rfl
        | succ i' => exact ih hco i' (Nat.lt_of_succ_lt_succ hi) (Nat.lt_of_succ_lt_succ hj)

theorem collectOk_mem_ok {l : List (Except SErr String)} {rs : List String}
    (h : collectOk l = .ok rs) : ∀ e ∈ l, ∃ s, e = .ok s := by
  induction l generalizing rs with
  | nil => intro e he; cases he
  | cons e0 rest ih =>
    cases e0 with
    | error e' => cases h
    | ok s =>
      rw [collectOk] at h
      cases hco : collectOk rest with
      | error e' => rw [hco] at h; cases h
      | ok ss =>
        intro e he
        rcases List.mem_cons.mp he with rfl | hmem
        · exact ⟨s, rfl⟩
        · exact ih hco e hmem

theorem collectOk_ok_of_forall {l : List (Except SErr String)}
    (h : ∀ e ∈ l, ∃ s, e = .ok s) : ∃ rs, collectOk l = .ok rs := by
  induction l with
  | nil => exact ⟨[], rfl⟩
  | cons e0 rest ih =>
    rcases h e0 (List.mem_cons_self _ _) with ⟨s, rfl⟩
    rcases ih (fun e he => h e (List.mem_cons_of_mem _ he)) with ⟨rs, hrs⟩
    refine ⟨s :: rs, ?_⟩
    rw [collectOk, hrs]

theorem collectOk_ne_fuel {l : List (Except SErr String)}
    (h : ∀ e ∈ l, e ≠ .error .fuel) : collectOk l ≠ .error .fuel := by
  induction l with
  | nil => intro hc; cases hc
  | cons e0 rest ih =>
    cases e0 with
    | error e' =>
      intro hc
      rw [collectOk] at hc
      have he : e' = SErr.fuel := Except.error.inj hc
      exact h _ (List.mem_cons_self _ _) (by rw [he])
    | ok s =>
      intro hc
      rw [collectOk] at hc
      cases hco : collectOk rest with
      | error e' =>
        simp only [hco] at hc
        have he : e' = SErr.fuel := Except.error.inj hc
        exact ih (fun e he' => h e (List.mem_cons_of_mem _ he')) (by rw [hco, he])
      | ok ss =>
        simp only [hco] at hc
        cases hc

theorem except_map_ne_fuel {g : String → String} {x : Except SErr String}
    (h : x ≠ .error .fuel) : Except.map g x ≠ .error .fuel := by
  cases x with
  | error e =>
    intro hc
    have he : e = SErr.fuel := Except.error.inj hc
    exact h (by rw [he])
  | ok s => intro hc; cases hc

theorem except_map_ok {g : String → String} {x : Except SErr String} {t : String}
    (h : Except.map g x = .ok t) : ∃ u, x = .ok u ∧ t = g u := by
  cases x with
  | error e => cases h
  | ok u => exact ⟨u, rfl, (Except.ok.inj h).symm⟩

/-! ### Heap basics -/

theorem nodeAt_lt_of_container {h : Heap} {a : Nat}
    (hc : isContainer (nodeAt h a) = true) : a < h.length := by
  by_contra hge
  push_neg at hge
  unfold nodeAt at hc
  rw [List.getD_eq_getElem?_getD, List.getElem?_eq_none hge] at hc
  cases hc

theorem mem_objAddrs_iff {h : Heap} {a : Nat} :
    a ∈ objAddrs h ↔ isContainer (nodeAt h a) = true := by
  unfold objAddrs
  rw [Finset.mem_filter, Finset.mem_range]
  constructor
  · rintro ⟨_, hc⟩; exact hc
  · intro hc; exact ⟨nodeAt_lt_of_container hc, hc⟩

theorem card_sdiff_insert_lt {h : Heap} {a : Nat} (seen : List Nat)
    (ha : isContainer (nodeAt h a) = true) (hnotin : a ∉ seen) :
    ((objAddrs h) \ (a :: seen).toFinset).card <
      ((objAddrs h) \ seen.toFinset).card := by
  rw [List.toFinset_cons, Finset.sdiff_insert]
  have hmem : a ∈ objAddrs h \ seen.toFinset :=
    Finset.mem_sdiff.mpr ⟨mem_objAddrs_iff.mpr ha,
      fun hc => hnotin (List.mem_toFinset.mp hc)⟩
  rw [Finset.card_erase_of_mem hmem]
  exact Nat.sub_lt (Finset.card_pos.mpr ⟨a, hmem⟩) Nat.one_pos

theorem nodeAt_mem {h : Heap} {a : Nat} (ha : a < h.length) : nodeAt h a ∈ h := by
  unfold nodeAt
  rw [List.getD_eq_getElem?_getD, List.getElem?_eq_getElem ha]
  exact List.getElem_mem ha

theorem wf_nodeAt_obj {h : Heap} (hwf : WfHeap h) {a : Nat}
    {fs : List (String × Nat)} (hn : nodeAt h a = .obj fs) :
    (fs.map Prod.fst).Nodup := by
  have ha : a < h.length := nodeAt_lt_of_container (by rw [hn]; rfl)
  exact hwf (nodeAt h a) (nodeAt_mem ha) fs hn

theorem mem_sortedKeys_iff {fs : List (String × Nat)} {k : String} :
    k ∈ sortedKeys fs ↔ k ∈ fs.map Prod.fst :=
  (List.perm_insertionSort _ _).mem_iff

theorem objGet_mem_children {h : Heap} {fs : List (String × Nat)} {k : String}
    (hk : k ∈ fs.map Prod.fst) : objGet h fs k ∈ fs.map Prod.snd := by
  rcases List.mem_map.mp hk with ⟨p, hp, rfl⟩
  unfold objGet
  cases hf : fs.find? (fun q => q.1 == p.1) with
  | none =>
    exact absurd (by simp : (p.1 == p.1) = true) (List.find?_eq_none.mp hf p hp)
  | some q =>
    exact List.mem_map_of_mem Prod.snd (List.mem_of_find?_eq_some hf)

/-- Under unique keys, every raw object child is the one accessed at its
key. -/
theorem obj_child_accessed {h : Heap} {fs : List (String × Nat)}
    (hnd : (fs.map Prod.fst).Nodup) {c : Nat} (hc : c ∈ fs.map Prod.snd) :
    ∃ k, k ∈ sortedKeys fs ∧ objGet h fs k = c := by
  rcases List.mem_map.mp hc with ⟨p, hp, rfl⟩
  refine ⟨p.1, mem_sortedKeys_iff.mpr (List.mem_map_of_mem Prod.fst hp), ?_⟩
  unfold objGet
  cases hf : fs.find? (fun q => q.1 == p.1) with
  | none =>
    exact absurd (by simp : (p.1 == p.1) = true) (List.find?_eq_none.mp hf p hp)
  | some q =>
    have hq := List.mem_of_find?_eq_some hf
    have hbeq := List.find?_some hf
    have hqk : q.1 = p.1 := eq_of_beq hbeq
    rw [assoc_key_unique hnd hq hp hqk]

theorem hstep_container {h : Heap} {x y : Nat} (hxy : hstep h x y) :
    isContainer (nodeAt h x) = true := by
  unfold hstep at hxy
  cases hn : nodeAt h x with
  | prim r => rw [hn] at hxy; cases hxy
  | arr es => rfl
  | obj fs => rfl

/-! ### Fuel sufficiency of the serializer -/

theorem seenStringify_ne_fuel (h : Heap) :
    ∀ (f : Nat) (seen : List Nat) (a : Nat),
      ((objAddrs h) \ seen.toFinset).card < f →
      seenStringify h f seen a ≠ .error .fuel := by
  intro f
  induction f with
  | zero => intro seen a hcard; exact absurd hcard (Nat.not_lt_zero _)
  | succ f ih =>
    intro seen a hcard
    cases hn : nodeAt h a with
    | prim r => simp [seenStringify, hn]
    | arr es =>
      simp only [seenStringify, hn]
      by_cases hmem : a ∈ seen
      · rw [if_pos hmem]; simp
      · rw [if_neg hmem]
        have hcont : isContainer (nodeAt h a) = true := by rw [hn]; rfl
        have hlt := card_sdiff_insert_lt seen hcont hmem
        have hchild : ∀ e ∈ es.map (fun e => seenStringify h f (a :: seen) e),
            e ≠ .error .fuel := by
          intro x hx
          rcases List.mem_map.mp hx with ⟨e, _, rfl⟩
          exact ih (a :: seen) e (Nat.lt_of_lt_of_le hlt (Nat.lt_succ_iff.mp hcard))
        cases hco : collectOk (es.map (fun e => seenStringify h f (a :: seen) e)) with
        | ok parts => simp [hco]
        | error e =>
          simp only [hco]
          intro hc
          exact collectOk_ne_fuel hchild (hco.trans (congrArg _ (Except.error.inj hc)))
    | obj fs =>
      simp only [seenStringify, hn]
      by_cases hmem : a ∈ seen
      · rw [if_pos hmem]; simp
      · rw [if_neg hmem]
        have hcont : isContainer (nodeAt h a) = true := by rw [hn]; rfl
        have hlt := card_sdiff_insert_lt seen hcont hmem
        have hchild : ∀ e ∈ (sortedKeys fs).map (fun k =>
            Except.map (fun s => jsonQuote k ++ ":" ++ s)
              (seenStringify h f (a :: seen) (objGet h fs k))),
            e ≠ .error .fuel := by
          intro x hx
          rcases List.mem_map.mp hx with ⟨k, _, rfl⟩
          exact except_map_ne_fuel
            (ih (a :: seen) (objGet h fs k)
              (Nat.lt_of_lt_of_le hlt (Nat.lt_succ_iff.mp hcard)))
        cases hco : collectOk ((sortedKeys fs).map (fun k =>
            Except.map (fun s => jsonQuote k ++ ":" ++ s)
              (seenStringify h f (a :: seen) (objGet h fs k)))) with
        | ok parts => simp [hco]
        | error e =>
          simp only [hco]
          intro hc
          exact collectOk_ne_fuel hchild (hco.trans (congrArg _ (Except.error.inj hc)))

/-! ### The key ordering -/

theorem codeUnitsLe_total : ∀ xs ys : List Nat,
    codeUnitsLe xs ys = true ∨ codeUnitsLe ys xs = true := by
  intro xs
  induction xs with
  | nil => intro ys; left; rfl
  | cons x xs ih =>
    intro ys
    cases ys with
    | nil => right; rfl
    | cons y ys =>
      rcases Nat.lt_trichotomy x y with hlt | heqv | hgt
      · left; simp [codeUnitsLe, hlt]
      · subst heqv
        rcases ih ys with hc | hc
        · left; simp [codeUnitsLe, lt_irrefl, hc]
        · right; simp [codeUnitsLe, lt_irrefl, hc]
      · right; simp [codeUnitsLe, hgt]

theorem codeUnitsLe_trans : ∀ xs ys zs : List Nat,
    codeUnitsLe xs ys = true → codeUnitsLe ys zs = true →
    codeUnitsLe xs zs = true := by
  intro xs
  induction xs with
  | nil => intro ys zs _ _; rfl
  | cons x xs ih =>
    intro ys zs h1 h2
    cases ys with
    | nil => simp [codeUnitsLe] at h1
    | cons y ys =>
      cases zs with
      | nil => simp [codeUnitsLe] at h2
      | cons z zs =>
        by_cases hxy : x < y
        · by_cases hyz : y < z
          · simp [codeUnitsLe, lt_trans hxy hyz]
          · by_cases hzy : z < y
            · simp [codeUnitsLe, hyz, hzy] at h2
            · have hyzeq : y = z := Nat.le_antisymm (Nat.le_of_not_lt hzy) (Nat.le_of_not_lt hyz)
              subst hyzeq
              simp [codeUnitsLe, hxy]
        · by_cases hyx : y < x
          · simp [codeUnitsLe, hxy, hyx] at h1
          · have hxyeq : x = y := Nat.le_antisymm (Nat.le_of_not_lt hyx) (Nat.le_of_not_lt hxy)
            subst hxyeq
            simp only [codeUnitsLe, lt_irrefl, if_false] at h1
            by_cases hxz : x < z
            · simp [codeUnitsLe, hxz]
            · by_cases hzx : z < x
              · simp [codeUnitsLe, hxz, hzx] at h2
              · have hxzeq : x = z := Nat.le_antisymm (Nat.le_of_not_lt hzx) (Nat.le_of_not_lt hxz)
                subst hxzeq
                simp only [codeUnitsLe, lt_irrefl, if_false] at h2 ⊢
                exact ih ys zs h1 h2

theorem codeUnitsLe_antisymm : ∀ xs ys : List Nat,
    codeUnitsLe xs ys = true → codeUnitsLe ys xs = true → xs = ys := by
  intro xs
  induction xs with
  | nil =>
    intro ys h1 h2
    cases ys with
    | nil => rfl
    | cons y ys => simp [codeUnitsLe] at h2
  | cons x xs ih =>
    intro ys h1 h2
    cases ys with
    | nil => simp [codeUnitsLe] at h1
    | cons y ys =>
      by_cases hxy : x < y
      · simp [codeUnitsLe, hxy, Nat.lt_asymm hxy] at h2
      · by_cases hyx : y < x
        · simp [codeUnitsLe, hxy, hyx] at h1
        · have hxyeq : x = y := Nat.le_antisymm (Nat.le_of_not_lt hyx) (Nat.le_of_not_lt hxy)
          subst hxyeq
          simp only [codeUnitsLe, lt_irrefl, if_false] at h1 h2
          rw [ih ys h1 h2]

theorem charToNat_injective : Function.Injective Char.toNat := by
  intro a b hab
  exact Char.eq_of_val_eq (UInt32.eq_of_val_eq (Fin.ext hab))

theorem keyLe_total (a b : String) : keyLe a b = true ∨ keyLe b a = true :=
  codeUnitsLe_total _ _

theorem keyLe_trans {a b c : String} (h1 : keyLe a b = true)
    (h2 : keyLe b c = true) : keyLe a c = true :=
  codeUnitsLe_trans _ _ _ h1 h2

theorem keyLe_antisymm {a b : String} (h1 : keyLe a b = true)
    (h2 : keyLe b a = true) : a = b := by
  have hdata := codeUnitsLe_antisymm _ _ h1 h2
  have hd : a.data = b.data :=
    List.map_injective_iff.mpr charToNat_injective hdata
  cases a; cases b
  exact congrArg String.mk hd

/-- Sorted keys are determined by the key set when keys are duplicate
free: same membership implies the same sorted key list. -/
theorem sortedKeys_eq_of_mem_iff {fs1 fs2 : List (String × Nat)}
    (hnd1 : (fs1.map Prod.fst).Nodup) (hnd2 : (fs2.map Prod.fst).Nodup)
    (hkeys : ∀ k, k ∈ fs1.map Prod.fst ↔ k ∈ fs2.map Prod.fst) :
    sortedKeys fs1 = sortedKeys fs2 := by
  haveI htr : IsTrans String (fun x y => keyLe x y = true) :=
    ⟨fun _ _ _ => keyLe_trans⟩
  haveI hto : IsTotal String (fun x y => keyLe x y = true) :=
    ⟨keyLe_total⟩
  haveI has : IsAntisymm String (fun x y => keyLe x y = true) :=
    ⟨fun _ _ => keyLe_antisymm⟩
  have hperm : List.Perm (sortedKeys fs1) (sortedKeys fs2) := by
    refine (List.perm_insertionSort _ _).trans (List.Perm.trans ?_
      (List.perm_insertionSort _ _).symm)
    exact (List.perm_ext_iff_of_nodup hnd1 hnd2).mpr hkeys
  exact List.eq_of_perm_of_sorted hperm
    (List.sorted_insertionSort _ _) (List.sorted_insertionSort _ _)

/-! ### A successful serialization sees no cycle -/

theorem ok_no_cycle_container_step (h : Heap) {seen : List Nat} {a : Nat}
    (childAddrs : List Nat) (hmem : a ∉ seen)
    (hcont : isContainer (nodeAt h a) = true)
    (hstepchild : ∀ c, hstep h a c ↔ c ∈ childAddrs)
    (hchildIH : ∀ c ∈ childAddrs, ∀ y, reach h c y →
      (isContainer (nodeAt h y) = true → y ∉ a :: seen) ∧
      ¬ Relation.TransGen (hstep h) y y) :
    ∀ x, reach h a x →
      (isContainer (nodeAt h x) = true → x ∉ seen) ∧
      ¬ Relation.TransGen (hstep h) x x := by
  intro x hx
  rcases Relation.ReflTransGen.cases_head hx with rfl | ⟨c, hc, hcx⟩
  · constructor
    · intro _; exact hmem
    · intro htg
      rcases Relation.TransGen.head'_iff.mp htg with ⟨c, hc, hca⟩
      exact (hchildIH c ((hstepchild c).mp hc) a hca).1 hcont
        (List.mem_cons_self _ _)
  · have hres := hchildIH c ((hstepchild c).mp hc) x hcx
    exact ⟨fun hcont2 hsx => (hres.1 hcont2) (List.mem_cons_of_mem _ hsx), hres.2⟩

theorem seenStringify_ok_no_cycle (h : Heap) (hwf : WfHeap h) :
    ∀ (f : Nat) (seen : List Nat) (a : Nat) (s : String),
      seenStringify h f seen a = .ok s →
      ∀ x, reach h a x →
        (isContainer (nodeAt h x) = true → x ∉ seen) ∧
        ¬ Relation.TransGen (hstep h) x x := by
  intro f
  induction f with
  | zero => intro seen a s hok; simp [seenStringify] at hok
  | succ f ih =>
    intro seen a s hok x hx
    cases hn : nodeAt h a with
    | prim r =>
      have hxa : x = a := by
        rcases Relation.ReflTransGen.cases_head hx with rfl | ⟨c, hc, _⟩
        · rfl
        · unfold hstep at hc
          rw [hn] at hc
          cases hc
      subst hxa
      constructor
      · intro hcont
        rw [hn] at hcont
        cases hcont
      · intro htg
        rcases Relation.TransGen.head'_iff.mp htg with ⟨c, hc, _⟩
        unfold hstep at hc
        rw [hn] at hc
        cases hc
    | arr es =>
      simp only [seenStringify, hn] at hok
      by_cases hmem : a ∈ seen
      · rw [if_pos hmem] at hok; cases hok
      · rw [if_neg hmem] at hok
        cases hco : collectOk (es.map (fun e => seenStringify h f (a :: seen) e)) with
        | error e => simp only [hco] at hok; cases hok
        | ok parts =>
          refine ok_no_cycle_container_step h es hmem
            (by rw [hn]; rfl) ?_ ?_ x hx
          · intro c
            unfold hstep
            rw [hn]
            exact Iff.rfl
          · intro c hc y hy
            rcases collectOk_mem_ok hco _
              (List.mem_map_of_mem (fun e => seenStringify h f (a :: seen) e) hc)
              with ⟨sc, hsc⟩
            exact ih (a :: seen) c sc hsc y hy
    | obj fs =>
      simp only [seenStringify, hn] at hok
      by_cases hmem : a ∈ seen
      · rw [if_pos hmem] at hok; cases hok
      · rw [if_neg hmem] at hok
        cases hco : collectOk ((sortedKeys fs).map (fun k =>
            Except.map (fun s => jsonQuote k ++ ":" ++ s)
              (seenStringify h f (a :: seen) (objGet h fs k)))) with
        | error e => simp only [hco] at hok; cases hok
        | ok parts =>
          have hnd : (fs.map Prod.fst).Nodup := wf_nodeAt_obj hwf hn
          refine ok_no_cycle_container_step h (fs.map Prod.snd) hmem
            (by rw [hn]; rfl) ?_ ?_ x hx
          · intro c
            unfold hstep
            rw [hn]
            exact Iff.rfl
          · intro c hc y hy
            rcases obj_child_accessed hnd hc with ⟨k, hk, hobj⟩
            rcases collectOk_mem_ok hco _ (List.mem_map_of_mem _ hk) with ⟨t, ht⟩
            rcases except_map_ok ht with ⟨u, hu, _⟩
            rw [hobj] at hu
            exact ih (a :: seen) c u hu y hy

/-! ### Acyclic values serialize successfully -/

theorem seenStringify_ok_of_acyclic (h : Heap) (_hwf : WfHeap h) :
    ∀ (f : Nat) (seen : List Nat) (a : Nat),
      (∀ x, reach h a x → ¬ Relation.TransGen (hstep h) x x) →
      (∀ x, reach h a x → isContainer (nodeAt h x) = true → x ∉ seen) →
      ((objAddrs h) \ seen.toFinset).card < f →
      ∃ s, seenStringify h f seen a = .ok s := by
  intro f
  induction f with
  | zero => intro seen a _ _ hcard; exact absurd hcard (Nat.not_lt_zero _)
  | succ f ih =>
    intro seen a hnc hns hcard
    cases hn : nodeAt h a with
    | prim r => exact ⟨r, by simp [seenStringify, hn]⟩
    | arr es =>
      have hcont : isContainer (nodeAt h a) = true := by rw [hn]; rfl
      have hmem : a ∉ seen := hns a Relation.ReflTransGen.refl hcont
      have hlt := card_sdiff_insert_lt seen hcont hmem
      have hstepc : ∀ c, c ∈ es → hstep h a c := by
        intro c hc
        unfold hstep
        rw [hn]
        exact hc
      have hchild : ∀ c ∈ es, ∃ sc, seenStringify h f (a :: seen) c = .ok sc := by
        intro c hc
        apply ih (a :: seen) c
        · intro x hx
          exact hnc x (Relation.ReflTransGen.head (hstepc c hc) hx)
        · intro x hx hcx hmem'
          rcases List.mem_cons.mp hmem' with rfl | hmem''
          · exact hnc x Relation.ReflTransGen.refl
              (Relation.TransGen.head'_iff.mpr ⟨c, hstepc c hc, hx⟩)
          · exact hns x (Relation.ReflTransGen.head (hstepc c hc) hx) hcx hmem''
        · exact Nat.lt_of_lt_of_le hlt (Nat.lt_succ_iff.mp hcard)
      have hall : ∀ e ∈ es.map (fun e => seenStringify h f (a :: seen) e),
          ∃ sc, e = .ok sc := by
        intro e he
        rcases List.mem_map.mp he with ⟨c, hc, rfl⟩
        exact hchild c hc
      rcases collectOk_ok_of_forall hall with ⟨parts, hparts⟩
      refine ⟨"[" ++ String.intercalate "," parts ++ "]", ?_⟩
      simp only [seenStringify, hn]
      rw [if_neg hmem]
      simp only [hparts]
    | obj fs =>
      have hcont : isContainer (nodeAt h a) = true := by rw [hn]; rfl
      have hmem : a ∉ seen := hns a Relation.ReflTransGen.refl hcont
      have hlt := card_sdiff_insert_lt seen hcont hmem
      have hstepc : ∀ c, c ∈ fs.map Prod.snd → hstep h a c := by
        intro c hc
        unfold hstep
        rw [hn]
        exact hc
      have hchild : ∀ c ∈ fs.map Prod.snd,
          ∃ sc, seenStringify h f (a :: seen) c = .ok sc := by
        intro c hc
        apply ih (a :: seen) c
        · intro x hx
          exact hnc x (Relation.ReflTransGen.head (hstepc c hc) hx)
        · intro x hx hcx hmem'
          rcases List.mem_cons.mp hmem' with rfl | hmem''
          · exact hnc x Relation.ReflTransGen.refl
              (Relation.TransGen.head'_iff.mpr ⟨c, hstepc c hc, hx⟩)
          · exact hns x (Relation.ReflTransGen.head (hstepc c hc) hx) hcx hmem''
        · exact Nat.lt_of_lt_of_le hlt (Nat.lt_succ_iff.mp hcard)
      have hall : ∀ e ∈ (sortedKeys fs).map (fun k =>
          Except.map (fun s => jsonQuote k ++ ":" ++ s)
            (seenStringify h f (a :: seen) (objGet h fs k))),
          ∃ sc, e = .ok sc := by
        intro e he
        rcases List.mem_map.mp he with ⟨k, hk, rfl⟩
        rcases hchild (objGet h fs k)
          (objGet_mem_children (mem_sortedKeys_iff.mp hk)) with ⟨sc, hsc⟩
        exact ⟨jsonQuote k ++ ":" ++ sc, by rw [hsc]; rfl⟩
      rcases collectOk_ok_of_forall hall with ⟨parts, hparts⟩
      refine ⟨"\x7b" ++ String.intercalate "," parts ++ "\x7d", ?_⟩
      simp only [seenStringify, hn]
      rw [if_neg hmem]
      simp only [hparts]

/-! ### Accessibility from logical equality, and rank certificates -/

theorem acc_of_reach (h : Heap) {a x : Nat}
    (hacc : Acc (fun y x => hstep h x y) a) (hx : reach h a x) :
    Acc (fun y x => hstep h x y) x := by
  induction hx with
  | refl => exact hacc
  | tail _ hbc ihx => exact Acc.inv ihx hbc

theorem acc_no_cycle_at (h : Heap) {x : Nat}
    (hacc : Acc (fun y x => hstep h x y) x) :
    ¬ Relation.TransGen (hstep h) x x := by
  induction hacc with
  | intro x _ ihx =>
    intro htg
    rcases Relation.TransGen.head'_iff.mp htg with ⟨y, hxy, hyx⟩
    exact ihx y hxy (Relation.TransGen.tail' hyx hxy)

theorem no_cycle_of_rank (h : Heap) (rank : Nat → Nat)
    (hr : ∀ x y, hstep h x y → rank y < rank x) :
    ∀ x, ¬ Relation.TransGen (hstep h) x x := by
  have hdec : ∀ x y, Relation.TransGen (hstep h) x y → rank y < rank x := by
    intro x y htg
    induction htg with
    | single hxy => exact hr _ _ hxy
    | tail _ hyz ihs => exact lt_trans (hr _ _ hyz) ihs
  intro x htg
  exact lt_irrefl _ (hdec x x htg)

theorem logEq_acc (h : Heap) (hwf : WfHeap h) {a b : Nat} (heq : LogEq h a b) :
    Acc (fun y x => hstep h x y) a ∧ Acc (fun y x => hstep h x y) b := by
  induction heq with
  | prim a b r hna hnb =>
    constructor
    · refine Acc.intro a (fun y hy => ?_)
      unfold hstep at hy
      rw [hna] at hy
      cases hy
    · refine Acc.intro b (fun y hy => ?_)
      unfold hstep at hy
      rw [hnb] at hy
      cases hy
  | arr a b es fs hna hnb hlen hpt ihp =>
    constructor
    · refine Acc.intro a (fun y hy => ?_)
      unfold hstep at hy
      rw [hna] at hy
      simp only [jChildren] at hy
      rcases List.mem_iff_get.mp hy with ⟨⟨i, hi⟩, rfl⟩
      exact (ihp i hi (hlen ▸ hi)).1
    · refine Acc.intro b (fun y hy => ?_)
      unfold hstep at hy
      rw [hnb] at hy
      simp only [jChildren] at hy
      rcases List.mem_iff_get.mp hy with ⟨⟨i, hi⟩, rfl⟩
      exact (ihp i (hlen ▸ hi) hi).2
  | obj a b fs1 fs2 hna hnb hkeys hpt ihp =>
    constructor
    · refine Acc.intro a (fun y hy => ?_)
      unfold hstep at hy
      rw [hna] at hy
      simp only [jChildren] at hy
      have hnd1 : (fs1.map Prod.fst).Nodup := wf_nodeAt_obj hwf hna
      rcases obj_child_accessed (h := h) hnd1 hy with ⟨k, hk, hobj⟩
      have := (ihp k (mem_sortedKeys_iff.mp hk)).1
      rw [hobj] at this
      exact this
    · refine Acc.intro b (fun y hy => ?_)
      unfold hstep at hy
      rw [hnb] at hy
      simp only [jChildren] at hy
      have hnd2 : (fs2.map Prod.fst).Nodup := wf_nodeAt_obj hwf hnb
      rcases obj_child_accessed (h := h) hnd2 hy with ⟨k, hk, hobj⟩
      have hk1 : k ∈ fs1.map Prod.fst := (hkeys k).mpr (mem_sortedKeys_iff.mp hk)
      have := (ihp k hk1).2
      rw [hobj] at this
      exact this

/-! ### Logically equal values serialize identically -/

theorem seenStringify_logEq (h : Heap) (hwf : WfHeap h) {a b : Nat}
    (heq : LogEq h a b) :
    ∀ (f1 f2 : Nat) (seen1 seen2 : List Nat) (s1 s2 : String),
      seenStringify h f1 seen1 a = .ok s1 →
      seenStringify h f2 seen2 b = .ok s2 → s1 = s2 := by
  induction heq with
  | prim a b r hna hnb =>
    intro f1 f2 seen1 seen2 s1 s2 h1 h2
    cases f1 with
    | zero => simp [seenStringify] at h1
    | succ f1 =>
      cases f2 with
      | zero => simp [seenStringify] at h2
      | succ f2 =>
        simp only [seenStringify, hna] at h1
        simp only [seenStringify, hnb] at h2
        rw [← Except.ok.inj h1, ← Except.ok.inj h2]
  | arr a b es fs hna hnb hlen hpt ihp =>
    intro f1 f2 seen1 seen2 s1 s2 h1 h2
    cases f1 with
    | zero => simp [seenStringify] at h1
    | succ f1 =>
      cases f2 with
      | zero => simp [seenStringify] at h2
      | succ f2 =>
        simp only [seenStringify, hna] at h1
        simp only [seenStringify, hnb] at h2
        by_cases hm1 : a ∈ seen1
        · rw [if_pos hm1] at h1; cases h1
        · rw [if_neg hm1] at h1
          by_cases hm2 : b ∈ seen2
          · rw [if_pos hm2] at h2; cases h2
          · rw [if_neg hm2] at h2
            cases hco1 : collectOk (es.map
                (fun e => seenStringify h f1 (a :: seen1) e)) with
            | error e => simp only [hco1] at h1; cases h1
            | ok parts1 =>
              simp only [hco1] at h1
              cases hco2 : collectOk (fs.map
                  (fun e => seenStringify h f2 (b :: seen2) e)) with
              | error e => simp only [hco2] at h2; cases h2
              | ok parts2 =>
                simp only [hco2] at h2
                have hp : parts1 = parts2 := by
                  have hl1 : parts1.length = es.length := by
                    rw [collectOk_ok_length hco1, List.length_map]
                  have hl2 : parts2.length = fs.length := by
                    rw [collectOk_ok_length hco2, List.length_map]
                  apply List.ext_get (by rw [hl1, hl2, hlen])
                  intro n hn1 hn2
                  have hne : n < es.length := hl1 ▸ hn1
                  have hnf : n < fs.length := hl2 ▸ hn2
                  have hg1 := collectOk_ok_get hco1 n
                    (by rw [List.length_map]; exact hne) hn1
                  have hg2 := collectOk_ok_get hco2 n
                    (by rw [List.length_map]; exact hnf) hn2
                  rw [List.get_map] at hg1 hg2
                  exact ihp n hne hnf f1 f2 (a :: seen1) (b :: seen2) _ _ hg1 hg2
                rw [← Except.ok.inj h1, ← Except.ok.inj h2, hp]
  | obj a b fs1 fs2 hna hnb hkeys hpt ihp =>
    intro f1 f2 seen1 seen2 s1 s2 h1 h2
    cases f1 with
    | zero => simp [seenStringify] at h1
    | succ f1 =>
      cases f2 with
      | zero => simp [seenStringify] at h2
      | succ f2 =>
        simp only [seenStringify, hna] at h1
        simp only [seenStringify, hnb] at h2
        by_cases hm1 : a ∈ seen1
        · rw [if_pos hm1] at h1; cases h1
        · rw [if_neg hm1] at h1
          by_cases hm2 : b ∈ seen2
          · rw [if_pos hm2] at h2; cases h2
          · rw [if_neg hm2] at h2
            have hnd1 : (fs1.map Prod.fst).Nodup := wf_nodeAt_obj hwf hna
            have hnd2 : (fs2.map Prod.fst).Nodup := wf_nodeAt_obj hwf hnb
            have hkeq : sortedKeys fs1 = sortedKeys fs2 :=
              sortedKeys_eq_of_mem_iff hnd1 hnd2 hkeys
            cases hco1 : collectOk ((sortedKeys fs1).map (fun k =>
                Except.map (fun s => jsonQuote k ++ ":" ++ s)
                  (seenStringify h f1 (a :: seen1) (objGet h fs1 k)))) with
            | error e => simp only [hco1] at h1; cases h1
            | ok parts1 =>
              simp only [hco1] at h1
              cases hco2 : collectOk ((sortedKeys fs2).map (fun k =>
                  Except.map (fun s => jsonQuote k ++ ":" ++ s)
                    (seenStringify h f2 (b :: seen2) (objGet h fs2 k)))) with
              | error e => simp only [hco2] at h2; cases h2
              | ok parts2 =>
                simp only [hco2] at h2
                have hp : parts1 = parts2 := by
                  have hl1 : parts1.length = (sortedKeys fs1).length := by
                    rw [collectOk_ok_length hco1, List.length_map]
                  have hl2 : parts2.length = (sortedKeys fs2).length := by
                    rw [collectOk_ok_length hco2, List.length_map]
                  apply List.ext_get (by rw [hl1, hl2, hkeq])
                  intro n hn1 hn2
                  have hnk1 : n < (sortedKeys fs1).length := hl1 ▸ hn1
                  have hnk2 : n < (sortedKeys fs2).length := hl2 ▸ hn2
                  have hg1 := collectOk_ok_get hco1 n
                    (by rw [List.length_map]; exact hnk1) hn1
                  have hg2 := collectOk_ok_get hco2 n
                    (by rw [List.length_map]; exact hnk2) hn2
                  rw [List.get_map] at hg1 hg2
                  rcases except_map_ok hg1.symm.symm with ⟨u1, hu1, ht1⟩
                  rcases except_map_ok hg2.symm.symm with ⟨u2, hu2, ht2⟩
                  set k1 := (sortedKeys fs1).get ⟨n, hnk1⟩ with hk1def
                  set k2 := (sortedKeys fs2).get ⟨n, hnk2⟩ with hk2def
                  have hkk : k1 = k2 := by
                    rw [hk1def, hk2def]
                    exact List.get_of_eq hkeq ⟨n, hnk1⟩
                  have hk1mem : k1 ∈ fs1.map Prod.fst :=
                    mem_sortedKeys_iff.mp (by rw [hk1def]; exact List.get_mem _ _ hnk1)
                  have hu2' : seenStringify h f2 (b :: seen2)
                      (objGet h fs2 k1) = .ok u2 := by
                    rw [hkk]; exact hu2
                  have hueq : u1 = u2 :=
                    ihp k1 hk1mem f1 f2 (a :: seen1) (b :: seen2) u1 u2 hu1 hu2'
                  rw [ht1, ht2, hueq, hkk]
                rw [← Except.ok.inj h1, ← Except.ok.inj h2, hp]

/-! ### Claim C7: cycles raise the circular structure error -/

theorem objAddrs_card_lt (h : Heap) :
    ((objAddrs h) \ ([] : List Nat).toFinset).card < h.length + 1 := by
  have h1 : (objAddrs h).card ≤ h.length := by
    have := Finset.card_filter_le (Finset.range h.length)
      (fun a => isContainer (nodeAt h a) = true)
    simpa [Finset.card_range] using this
  simpa [Finset.sdiff_empty] using Nat.lt_succ_of_le h1

/-- C7: a value that contains itself transitively makes `putObject`
fail with the circular structure error (neither hanging — the fuel
error is impossible at sufficient fuel — nor serializing), and the
store state is not extended. -/
theorem c7_circular_error (hash : String → String) (h : Heap) (v : Nat)
    (st : FsState) (hwf : WfHeap h)
    (hcyc : Relation.TransGen (hstep h) v v) :
    putObject hash h st v = .error .circular := by
  have hne_fuel : stableStringify h v ≠ .error .fuel :=
    seenStringify_ne_fuel h (h.length + 1) [] v (objAddrs_card_lt h)
  have hne_ok : ∀ s, stableStringify h v ≠ .ok s := by
    intro s hok
    exact (seenStringify_ok_no_cycle h hwf _ [] v s hok v
      Relation.ReflTransGen.refl).2 hcyc
  cases hss : stableStringify h v with
  | ok s => exact absurd hss (hne_ok s)
  | error e =>
    cases e with
    | circular =>
      unfold putObject
      simp only [hss]
    | fuel => exact absurd hss hne_fuel

/-- Witness for C7: the one element heap whose array contains itself. -/
theorem c7_circular_error_witness :
    putObject (fun s => s) cycHeap { objects := [] } 0 = .error .circular :=
  c7_circular_error (fun s => s) cycHeap 0 { objects := [] }
    (by
      intro n hn fs heqn
      rcases List.mem_singleton.mp hn with rfl
      cases heqn)
    (Relation.TransGen.single (by
      show (0 : Nat) ∈ jChildren (nodeAt cycHeap 0)
      decide))

/-! ### Claim C10: acyclic values with shared substructure serialize -/

/-- C10: canonical serialization succeeds on every value none of whose
reachable nodes lies on a reference cycle — in particular on DAGs where
the same object is reachable along several paths — because the
cycle-detection set only ever holds the ancestors of the current node. -/
theorem c10_dag_succeeds (h : Heap) (v : Nat) (hwf : WfHeap h)
    (hnc : ∀ x, reach h v x → ¬ Relation.TransGen (hstep h) x x) :
    ∃ s, stableStringify h v = .ok s := by
  apply seenStringify_ok_of_acyclic h hwf (h.length + 1) [] v hnc
  · intro x _ _ hmem
    cases hmem
  · exact objAddrs_card_lt h

/-- Witness for C10: the heap whose root array references the same
primitive node twice (sharing, no cycle); a rank function certifies
acyclicity. -/
theorem c10_dag_succeeds_witness :
    ∃ s, stableStringify dagHeap 0 = .ok s :=
  c10_dag_succeeds dagHeap 0
    (by
      intro n hn fs heqn
      rcases List.mem_cons.mp hn with rfl | hn2
      · cases heqn
      · rcases List.mem_singleton.mp hn2 with rfl
        cases heqn)
    (fun x _ =>
      no_cycle_of_rank dagHeap (fun a => 1 - a)
        (by
          intro x y hxy
          match x with
          | 0 =>
            have hy : y = 1 := by
              have : y ∈ jChildren (nodeAt dagHeap 0) := hxy
              simp [dagHeap, nodeAt, jChildren, List.getD] at this
              exact this
            subst hy
            decide
          | 1 =>
            have : y ∈ jChildren (nodeAt dagHeap 1) := hxy
            simp [dagHeap, nodeAt, jChildren, List.getD] at this
          | n + 2 =>
            have : y ∈ jChildren (nodeAt dagHeap (n + 2)) := hxy
            simp [dagHeap, nodeAt, jChildren, List.getD] at this)
        x)

/-! ### Claim C6: deduplication of logically equal values -/

/-- C6: logically equal values (same keys and values, any key insertion
order) canonicalize to the same string, hence `putObject` returns the
same reference for both, and the second call finds the blob already
present: it returns without writing and leaves the store unchanged. -/
theorem c6_put_dedup (hash : String → String) (h : Heap) (a b : Nat)
    (st : FsState) (hwf : WfHeap h) (heq : LogEq h a b) :
    ∃ r st' w, putObject hash h st a = .ok (r, st', w) ∧
      putObject hash h st' b = .ok (r, st', false) := by
  have hacc := logEq_acc h hwf heq
  have hnca : ∀ x, reach h a x → ¬ Relation.TransGen (hstep h) x x :=
    fun x hx => acc_no_cycle_at h (acc_of_reach h hacc.1 hx)
  have hncb : ∀ x, reach h b x → ¬ Relation.TransGen (hstep h) x x :=
    fun x hx => acc_no_cycle_at h (acc_of_reach h hacc.2 hx)
  rcases c10_dag_succeeds h a hwf hnca with ⟨s1, h1⟩
  rcases c10_dag_succeeds h b hwf hncb with ⟨s2, h2⟩
  have hs : s1 = s2 := seenStringify_logEq h hwf heq _ _ _ _ _ _ h1 h2
  subst hs
  by_cases hin : st.objects.contains ("json", hash s1) = true
  · refine ⟨makeRef "json" (hash s1), st, false, ?_, ?_⟩
    · unfold putObject
      simp only [h1]
      rw [if_pos hin]
    · unfold putObject
      simp only [h2]
      rw [if_pos hin]
  · refine ⟨makeRef "json" (hash s1),
      { objects := st.objects ++ [("json", hash s1)] }, true, ?_, ?_⟩
    · unfold putObject
      simp only [h1]
      rw [if_neg hin]
    · unfold putObject
      simp only [h2]
      rw [if_pos (by simp :
        ((st.objects ++ [("json", hash s1)]).contains ("json", hash s1)) = true)]

/-- Witness for C6: two objects with fields `a` and `b` inserted in
opposite order. -/
theorem c6_put_dedup_witness :
    ∃ r st' w, putObject (fun s => s) keyHeap { objects := [] } 0 = .ok (r, st', w) ∧
      putObject (fun s => s) keyHeap st' 1 = .ok (r, st', false) :=
  c6_put_dedup (fun s => s) keyHeap 0 1 { objects := [] }
    (by
      intro n hn fs heqn
      simp only [keyHeap, List.mem_cons, List.not_mem_nil, or_false] at hn
      rcases hn with rfl | rfl | rfl | rfl
      · injection heqn with hfs
        rw [← hfs]
        decide
      · injection heqn with hfs
        rw [← hfs]
        decide
      · cases heqn
      · cases heqn)
    (LogEq.obj 0 1 [("a", 2), ("b", 3)] [("b", 3), ("a", 2)] rfl rfl
      (by intro k; constructor <;> (intro hk; simp at hk ⊢; tauto))
      (by
        intro k hk
        simp only [List.map_cons, List.map_nil, List.mem_cons,
          List.not_mem_nil, or_false] at hk
        rcases hk with rfl | rfl
        · exact LogEq.prim _ _ "1" rfl rfl
        · exact LogEq.prim _ _ "2" rfl rfl))

end Splice
